import Mathlib

/-!
Verification development for the CrabKV storage engine.

The definitions below are a shallow embedding of the Rust sources:
  * `src/wal.rs`    — WAL codec (`encode_entry`, `read_record_internal`),
                      append / append_batch / load_index / rewrite,
  * `src/index.rs`  — `ValuePointer`,
  * `src/cache.rs`  — LRU cache with optional write-back buffer,
  * `src/engine.rs` — the engine state and its operations,
  * `src/compaction.rs` — the compaction predicate.

Modelling conventions:
  * Bytes are natural numbers; every byte the codec emits is < 256.
  * `SystemTime` is modelled as nanoseconds since the Unix epoch (a `Nat`);
    `Duration` likewise as nanoseconds.  Times before the epoch are not
    representable; the engine only ever constructs times `now + ttl`.
    Consequently the decoder's TTL-overflow branch (`UNIX_EPOCH.checked_add`
    failing) never fires in the model: it concerns instants beyond the
    platform's `SystemTime` range, which the unbounded `Nat` model has no
    counterpart for.  Likewise `SystemTime::now().checked_add(d)` always
    succeeds in the model.
  * Rust `as u32` casts are modelled by `% 4294967296`.
  * `u64` counters are modelled as unbounded `Nat`: wrap-around would require
    more than 2^64 bytes written to one log file.
  * The source reads the wall clock (`SystemTime::now()`) afresh at each use;
    each modelled operation takes a single `now` parameter used throughout,
    i.e. the clock is held constant within one operation.
  * `HashMap` is modelled as an association list; iteration and drain order
    follow the list.  Every statement proved below is insensitive to that
    order (single-entry maps, or results followed by a sort on distinct keys).
  * File I/O cannot fail in the model; the fallible paths that remain are the
    decode errors and the missing-record error of `read_record`, surfaced
    through `Except Unit`.  Fsync scheduling (`sync_interval`) is timing-only
    and not modelled.
-/

namespace CrabKV

/-- Little-endian encoding of `n` into `w` bytes
(`to_le_bytes` after an `as uN` cast: only the low `w` bytes are kept). -/
def toLE : Nat → Nat → List Nat
  | _, 0 => []
  | n, w + 1 => n % 256 :: toLE (n / 256) w

/-- Little-endian interpretation of a byte list (`from_le_bytes`).  The
arguments are `u8` values in the source; the `% 256` keeps junk model inputs
(naturals ≥ 256, which no real byte stream contains) inside the u8 range. -/
def fromLE : List Nat → Nat
  | [] => 0
  | b :: bs => b % 256 + 256 * fromLE bs

/-- Model of `read_exact` for `n` bytes on an in-memory stream. -/
def readExact (n : Nat) (input : List Nat) : Option (List Nat × List Nat) :=
  if n ≤ input.length then some (input.take n, input.drop n) else none

/-- Decides whether a continuation byte is in the range 0x80-0xBF. -/
def utf8Cont (b : Nat) : Bool := 128 ≤ b && b ≤ 191

/-- UTF-8 validity of a byte sequence, as checked by `String::from_utf8`
(RFC 3629: surrogates and overlong encodings rejected, code points ≤ U+10FFFF). -/
def utf8Valid : List Nat → Bool
  | [] => true
  | b :: rest =>
    if b ≤ 127 then utf8Valid rest
    else if 194 ≤ b && b ≤ 223 then
      match rest with
      | c1 :: r => utf8Cont c1 && utf8Valid r
      | [] => false
    else if b = 224 then
      match rest with
      | c1 :: c2 :: r => (160 ≤ c1 && c1 ≤ 191) && utf8Cont c2 && utf8Valid r
      | _ => false
    else if (225 ≤ b && b ≤ 236) || b = 238 || b = 239 then
      match rest with
      | c1 :: c2 :: r => utf8Cont c1 && utf8Cont c2 && utf8Valid r
      | _ => false
    else if b = 237 then
      match rest with
      | c1 :: c2 :: r => (128 ≤ c1 && c1 ≤ 159) && utf8Cont c2 && utf8Valid r
      | _ => false
    else if b = 240 then
      match rest with
      | c1 :: c2 :: c3 :: r =>
          (144 ≤ c1 && c1 ≤ 191) && utf8Cont c2 && utf8Cont c3 && utf8Valid r
      | _ => false
    else if 241 ≤ b && b ≤ 243 then
      match rest with
      | c1 :: c2 :: c3 :: r => utf8Cont c1 && utf8Cont c2 && utf8Cont c3 && utf8Valid r
      | _ => false
    else if b = 244 then
      match rest with
      | c1 :: c2 :: c3 :: r =>
          (128 ≤ c1 && c1 ≤ 143) && utf8Cont c2 && utf8Cont c3 && utf8Valid r
      | _ => false
    else false

/-- Timestamps: nanoseconds since the Unix epoch (model of `SystemTime`). -/
abbrev Time := Nat

/-- One second, in model time units. -/
def nsPerSec : Nat := 1000000000

/-- Truncation of a timestamp to whole seconds, as effected by storing
`duration.as_secs()` in the WAL header and reading it back. -/
def truncSec (t : Time) : Time := t / nsPerSec * nsPerSec

/-- Model of `WalEntry` (src/wal.rs): a Put or a Delete record payload.
Rust `String` keys and values are represented by their UTF-8 byte sequences. -/
inductive WalEntry where
  | put (key value : List Nat) (expires_at : Option Time)
  | delete (key : List Nat)
deriving DecidableEq, Repr

/-- Key bytes of an entry (`WalEntry::key_bytes`). -/
def WalEntry.key_bytes : WalEntry → List Nat
  | .put k _ _ => k
  | .delete k => k

/-- Value bytes of an entry (`WalEntry::value_bytes`); empty for Delete. -/
def WalEntry.value_bytes : WalEntry → List Nat
  | .put _ v _ => v
  | .delete _ => []

/-- Expiry of an entry (`WalEntry::expires_at`); `none` for Delete. -/
def WalEntry.expiry : WalEntry → Option Time
  | .put _ _ e => e
  | .delete _ => none

/-- Model of `ValuePointer` (src/index.rs). -/
structure ValuePointer where
  offset : Nat
  value_len : Nat
  record_len : Nat
deriving DecidableEq, Repr

/-- Model of `WalRecord` (src/wal.rs): a decoded record. -/
structure WalRecord where
  entry : WalEntry
  offset : Nat
  record_len : Nat
  value_len : Nat
deriving DecidableEq, Repr

/-- Modelled from the spec: the Snappy raw codec of the external `snap` crate
(not part of src/).  Only the contract wal.rs relies on is kept: `compress_vec`
and `decompress_vec` are mutually inverse and compression of a nonempty buffer
is nonempty (the raw format starts with a length preamble). -/
structure Codec where
  compress : List Nat → List Nat
  decompress : List Nat → Option (List Nat)
  decompress_compress : ∀ v, decompress (compress v) = some v
  compress_ne : ∀ v, v ≠ [] → compress v ≠ []

/-- Identity codec: a concrete inhabitant of the codec contract, used to
instantiate theorems whose content does not depend on the compressor. -/
def idCodec : Codec where
  compress := fun v => v
  decompress := fun v => some v
  decompress_compress := fun _ => rfl
  compress_ne := fun _ h => h

/-- Modelled from the spec: Snappy raw compression of a short nonempty buffer
(the `snap` crate is external to src/): a one-byte varint preamble carrying the
uncompressed length, then a single literal chunk whose tag byte is
4 * (len - 1), then the bytes themselves.  Valid for lengths 1..60, which
covers every concrete use below. -/
def snappyShort (v : List Nat) : List Nat :=
  if v.isEmpty then [] else v.length :: 4 * (v.length - 1) :: v

/-- Decoder inverting `snappyShort` on its image. -/
def snappyShortDecode : List Nat → Option (List Nat)
  | [] => some []
  | n :: t :: v => if n = v.length ∧ t = 4 * (v.length - 1) then some v else none
  | _ => none

/-- The short-input Snappy model packaged as a codec. -/
def snappyCodec : Codec where
  compress := snappyShort
  decompress := snappyShortDecode
  decompress_compress := by
    intro v
    cases v with
    | nil => rfl
    | cons b bs => simp [snappyShort, snappyShortDecode]
  compress_ne := by
    intro v hv
    simp [snappyShort, List.isEmpty_iff, hv]

/-- Header size of a WAL record: op (1) + key_len (4) + value_len (4) +
ttl_flag (1) + ttl_secs (8). -/
def HEADER_SIZE : Nat := 18

/-- Opcode byte of an entry (`WalOp`): 1 = Put, 2 = Delete. -/
def WalEntry.opByte : WalEntry → Nat
  | .put _ _ _ => 1
  | .delete _ => 2

/-- Value payload as stored on disk: Snappy-compressed when compression is
enabled and the value is nonempty (src/wal.rs `encode_entry`). -/
def storedValue (c : Codec) (compression : Bool) (e : WalEntry) : List Nat :=
  if compression && !e.value_bytes.isEmpty then c.compress e.value_bytes
  else e.value_bytes

/-- Model of `Wal::encode_entry` (src/wal.rs lines 395-430).  In the `Nat`
model every timestamp is at or after the epoch, so `duration_since(UNIX_EPOCH)`
always succeeds and the ttl flag is 1 exactly when an expiry is present. -/
def encode_entry (c : Codec) (compression : Bool) (e : WalEntry) : List Nat :=
  let key := e.key_bytes
  let final_value := storedValue c compression e
  let flag : Nat := match e.expiry with | some _ => 1 | none => 0
  let ttl : Nat := match e.expiry with | some t => t / nsPerSec | none => 0
  e.opByte :: (toLE key.length 4 ++ toLE final_value.length 4
    ++ flag :: toLE ttl 8 ++ key ++ final_value)

/-- Model of the decoder's expiry reconstruction
`UNIX_EPOCH.checked_add(Duration::from_secs(ttl_secs))` (src/wal.rs lines
369-376): on the 64-bit Unix platform the addition succeeds exactly when the
seconds fit the timespec's i64, and the decoder turns a failure into the
"ttl overflow" error.  `none` is that failure; `some` carries the decoded
`expires_at`. -/
def checkedExpiry (flagBytes : List Nat) (ttl_secs : Nat) : Option (Option Time) :=
  if flagBytes = [1] then
    if ttl_secs < 9223372036854775808 then some (some (ttl_secs * nsPerSec))
    else none
  else some none

/-- Model of `Wal::read_record_internal` (src/wal.rs lines 320-393): decodes
one record from the front of `input`, returning the record together with the
unconsumed remainder of the stream.  `Except.error ()` collects every decode
error (`io::Result::Err` in the source, including the "ttl overflow" of a
flag-1 ttl beyond the platform time range); `.ok none` is clean
end-of-file. -/
def read_record_internal (c : Codec) (compression : Bool) (input : List Nat) :
    Except Unit (Option (WalRecord × List Nat)) :=
  match input with
  | [] => .ok none
  | op :: r0 =>
    if op = 1 ∨ op = 2 then
      match readExact 4 r0 with
      | none => .error ()
      | some (klBytes, r1) =>
        let key_len := fromLE klBytes
        match readExact 4 r1 with
        | none => .error ()
        | some (vlBytes, r2) =>
          let value_len := fromLE vlBytes
          match readExact 1 r2 with
          | none => .error ()
          | some (flagBytes, r3) =>
            match readExact 8 r3 with
            | none => .error ()
            | some (ttlBytes, r4) =>
              let ttl_secs := fromLE ttlBytes
              match readExact key_len r4 with
              | none => .error ()
              | some (key_buf, r5) =>
                if utf8Valid key_buf then
                  let record_len := (HEADER_SIZE + key_len + value_len) % 4294967296
                  if op = 1 then
                    match readExact value_len r5 with
                    | none => .error ()
                    | some (value_buf, r6) =>
                      match (if compression && !value_buf.isEmpty
                             then c.decompress value_buf else some value_buf) with
                      | none => .error ()
                      | some dv =>
                        if utf8Valid dv then
                          match checkedExpiry flagBytes ttl_secs with
                          | none => .error ()
                          | some expires_at =>
                            .ok (some (⟨.put key_buf dv expires_at, 0, record_len,
                                        value_len⟩, r6))
                        else .error ()
                  else
                    if value_len ≠ 0 then .error ()
                    else
                      match checkedExpiry flagBytes ttl_secs with
                      | none => .error ()
                      | some _ =>
                        .ok (some (⟨.delete key_buf, 0, record_len, value_len⟩, r5))
                else .error ()
    else .error ()

/-- Entry as it comes back from a decode of its own encoding: the expiry is
truncated to whole seconds by the `as_secs` round-trip. -/
def truncEntry : WalEntry → WalEntry
  | .put k v e => .put k v (e.map truncSec)
  | .delete k => .delete k

/-- Record obtained by decoding the encoding of `e` (offset field as
`read_record_internal` leaves it: zero). -/
def truncRecordOf (c : Codec) (compression : Bool) (e : WalEntry) : WalRecord :=
  ⟨truncEntry e, 0,
   (HEADER_SIZE + e.key_bytes.length + (storedValue c compression e).length)
     % 4294967296,
   (storedValue c compression e).length⟩

/-- Model of `Wal::append` (src/wal.rs lines 129-164): appends the encoding at
the end of the log (the captured offset is the pre-write file end) and returns
a pointer built from `entry.value_bytes().len() as u32` — the uncompressed
value length — and the encoded record length. -/
def walAppend (c : Codec) (compression : Bool) (wal : List Nat) (e : WalEntry) :
    List Nat × ValuePointer :=
  let encoded := encode_entry c compression e
  (wal ++ encoded,
   ⟨wal.length, e.value_bytes.length % 4294967296, encoded.length % 4294967296⟩)

/-- Model of `Wal::append_batch` (src/wal.rs lines 167-201): one seek to the
end, then sequential encodes with a running offset.  An empty batch performs
no I/O; the result coincides with the fold below. -/
def walAppendBatch (c : Codec) (compression : Bool) (wal : List Nat) :
    List WalEntry → List Nat × List ValuePointer
  | [] => (wal, [])
  | e :: es =>
    let we := walAppend c compression wal e
    let rest := walAppendBatch c compression we.1 es
    (rest.1, we.2 :: rest.2)

/-- Model of `Wal::read_record` / `read_record_at` (src/wal.rs lines 204-206
and 305-318): seek to the offset, decode one record, error on EOF. -/
def read_record_at (c : Codec) (compression : Bool) (wal : List Nat) (off : Nat) :
    Except Unit WalRecord :=
  match read_record_internal c compression (wal.drop off) with
  | .error () => .error ()
  | .ok none => .error ()
  | .ok (some (rec, _)) => .ok { rec with offset := off }

/-- Model of `IndexEntry` (src/engine.rs). -/
structure IndexEntry where
  pointer : ValuePointer
  expires_at : Option Time
deriving DecidableEq, Repr

/-- Association-list model of the engine's `HashMap<String, IndexEntry>`.
`load_index` in the source returns `(ValuePointer, Option<SystemTime>)` pairs
that the engine immediately repackages as `IndexEntry`; the model uses
`IndexEntry` throughout. -/
abbrev IndexMap := List (List Nat × IndexEntry)

/-- Lookup in an association list (model of `HashMap::get`). -/
def alookup {β : Type} : List (List Nat × β) → List Nat → Option β
  | [], _ => none
  | (k1, v) :: t, k => if k1 = k then some v else alookup t k

/-- Insert-or-replace in an association list (model of `HashMap::insert`). -/
def ainsert {β : Type} : List (List Nat × β) → List Nat → β → List (List Nat × β)
  | [], k, v => [(k, v)]
  | (k1, v1) :: t, k, v =>
    if k1 = k then (k, v) :: t else (k1, v1) :: ainsert t k v

/-- Removal from an association list (model of `HashMap::remove`);
on the duplicate-free lists the engine maintains this removes the entry. -/
def aerase {β : Type} : List (List Nat × β) → List Nat → List (List Nat × β)
  | [], _ => []
  | (k1, v1) :: t, k => if k1 = k then aerase t k else (k1, v1) :: aerase t k

/-- One `load_index` loop step (src/wal.rs lines 224-237): apply a decoded
record at `off` to the accumulated index and stale counter. -/
def applyRecord (idx : IndexMap) (stale : Nat) (rec : WalRecord) (off : Nat) :
    IndexMap × Nat :=
  match rec.entry with
  | .put k _ e =>
    let pointer : ValuePointer := ⟨off, rec.value_len, rec.record_len⟩
    match alookup idx k with
    | some prev => (ainsert idx k ⟨pointer, e⟩, stale + prev.pointer.record_len)
    | none => (ainsert idx k ⟨pointer, e⟩, stale)
  | .delete k =>
    match alookup idx k with
    | some prev => (aerase idx k, stale + prev.pointer.record_len)
    | none => (idx, stale)

/-- Fuelled replay loop of `Wal::load_index` (src/wal.rs lines 209-242).
The fuel only bounds the recursion; one record consumes at least one byte, so
fuel equal to the input length never runs out (the fuel-exhausted branch is a
model artefact that no theorem below exercises on the error side). -/
def loadGo (c : Codec) (compression : Bool) :
    Nat → List Nat → Nat → IndexMap → Nat → Except Unit (IndexMap × Nat × Nat)
  | fuel, input, off, idx, stale =>
    match read_record_internal c compression input with
    | .error () => .error ()
    | .ok none => .ok (idx, stale, off)
    | .ok (some (rec, rest)) =>
      match fuel with
      | 0 => .error ()
      | fuel1 + 1 =>
        let step := applyRecord idx stale rec off
        loadGo c compression fuel1 rest (off + rec.record_len) step.1 step.2

/-- Model of `Wal::load_index`: replay the whole file from offset 0,
returning the reconstructed index and the stale-byte total. -/
def load_index (c : Codec) (compression : Bool) (wal : List Nat) :
    Except Unit (IndexMap × Nat) :=
  (loadGo c compression wal.length wal 0 [] 0).map (fun r => (r.1, r.2.1))

/-- Byte-wise lexicographic order on keys (Rust `String` ordering). -/
def keyLe : List Nat → List Nat → Bool
  | [], _ => true
  | _ :: _, [] => false
  | x :: xs, y :: ys => if x < y then true else if x = y then keyLe xs ys else false

/-- Compaction payload: (key, value, expires_at) triples of live records. -/
abbrev LiveEntry := List Nat × List Nat × Option Time

/-- View of a compaction payload triple as the Put entry `rewrite` encodes. -/
def toPutEntry (kve : LiveEntry) : WalEntry := .put kve.1 kve.2.1 kve.2.2

/-- Sort of the surviving entries by key ascending (src/engine.rs line 378).
Index keys are distinct, so any sorted permutation is the unique result of the
source's stable sort. -/
def sortByKey (l : List LiveEntry) : List LiveEntry :=
  List.insertionSort (fun a b => keyLe a.1 b.1 = true) l

/-- One iteration of the `Wal::rewrite` loop (src/wal.rs lines 262-274):
encode the entry at the end of the new file and record its pointer (built,
like `append`, from the uncompressed value length). -/
def rwStep (c : Codec) (compression : Bool) (acc : List Nat × IndexMap)
    (kve : LiveEntry) : List Nat × IndexMap :=
  let enc := encode_entry c compression (toPutEntry kve)
  (acc.1 ++ enc,
   ainsert acc.2 kve.1
     ⟨⟨acc.1.length, kve.2.1.length % 4294967296, enc.length % 4294967296⟩,
      kve.2.2⟩)

/-- Model of `Wal::rewrite` (src/wal.rs lines 245-303): sequentially encode
the entries into a fresh file and build the rebuilt index.  The temp-file swap
protocol only affects crash states, which have no counterpart in the model;
the result is the new file contents and the returned map. -/
def walRewrite (c : Codec) (compression : Bool) (entries : List LiveEntry) :
    List Nat × IndexMap :=
  entries.foldl (rwStep c compression) ([], [])

/-- Model of `CacheEntry` (src/cache.rs). -/
structure CacheEntry where
  value : List Nat
  expires_at : Option Time
deriving DecidableEq, Repr

/-- Model of `Cache` (src/cache.rs): a bounded LRU (most-recent-first list)
plus an unbounded write buffer used in write-back mode. -/
structure CacheModel where
  lru : List (List Nat × CacheEntry)
  write_buffer : List (List Nat × CacheEntry)
  write_back : Bool
  capacity : Nat
deriving DecidableEq, Repr

/-- LRU lookup with promotion to most-recently-used (the `lru` crate's `get`). -/
def cacheGetLru (cm : CacheModel) (k : List Nat) : Option CacheEntry × CacheModel :=
  match alookup cm.lru k with
  | some e => (some e, { cm with lru := (k, e) :: aerase cm.lru k })
  | none => (none, cm)

/-- Model of `Cache::get` (src/cache.rs lines 34-43): in write-back mode the
write buffer is consulted first (without touching the LRU), then the LRU. -/
def cacheGet (cm : CacheModel) (k : List Nat) : Option CacheEntry × CacheModel :=
  if cm.write_back then
    match alookup cm.write_buffer k with
    | some e => (some e, cm)
    | none => cacheGetLru cm k
  else cacheGetLru cm k

/-- Model of `Cache::put` (src/cache.rs lines 46-53): insert into the write
buffer when write-back is on, and into the LRU (promoting; evicting the
least-recently-used entry when a new key arrives at capacity). -/
def cachePut (cm : CacheModel) (k : List Nat) (e : CacheEntry) : CacheModel :=
  let buf := if cm.write_back then ainsert cm.write_buffer k e else cm.write_buffer
  let lru1 :=
    if (alookup cm.lru k).isSome then (k, e) :: aerase cm.lru k
    else if cm.lru.length = cm.capacity then (k, e) :: cm.lru.dropLast
    else (k, e) :: cm.lru
  { cm with write_buffer := buf, lru := lru1 }

/-- Model of `Cache::remove` (src/cache.rs lines 56-63). -/
def cacheRemove (cm : CacheModel) (k : List Nat) : CacheModel :=
  { cm with
    write_buffer := if cm.write_back then aerase cm.write_buffer k else cm.write_buffer,
    lru := aerase cm.lru k }

/-- Model of `Cache::flush_write_buffer` (src/cache.rs lines 66-73): drained
entries (in model order) and the cache with an emptied buffer. -/
def cacheFlushWriteBuffer (cm : CacheModel) :
    List (List Nat × CacheEntry) × CacheModel :=
  if cm.write_back then (cm.write_buffer, { cm with write_buffer := [] })
  else ([], cm)

/-- Model of `EngineConfig` (src/config.rs); `cache_capacity` is represented
by the presence of a cache in the state, `sync_interval` is timing-only. -/
structure EngineConfig where
  default_ttl : Option Nat
  compression : Bool
  write_back_cache : Bool
  async_compaction : Bool
deriving DecidableEq, Repr

/-- Model of `EngineState` (src/engine.rs). -/
structure EngineState where
  index : IndexMap
  wal : List Nat
  cache : Option CacheModel
  stale_bytes : Nat
  total_bytes : Nat
deriving DecidableEq, Repr

/-- Model of `should_compact` (src/compaction.rs).  The source compares
`stale as f64 / total as f64` against the f64 literal 0.33; this model uses
the exact rational comparison 100 * stale ≥ 33 * total.  The two agree
wherever the integer disjunct `stale > 8 MiB` decides the result or
`stale = 0` (the quotient is exactly 0.0 < 0.33); the definition is evaluated
below only at such inputs, and the engine-level theorems quantify over an
arbitrary predicate. -/
def should_compact (total_bytes stale_bytes : Nat) : Bool :=
  if total_bytes = 0 then false
  else
    (100 * stale_bytes ≥ 33 * total_bytes && total_bytes > 1048576)
      || stale_bytes > 8 * 1048576

/-- Model of `CrabKv::is_expired_at` (src/engine.rs lines 401-403). -/
def is_expired_at (expires_at : Option Time) (now : Time) : Bool :=
  match expires_at with
  | some deadline => now ≥ deadline
  | none => false

/-- First loop of `run_compaction` (src/engine.rs lines 357-369): walk the
index collecting `(key, value, expires_at)` of live records (expiry taken from
the re-read record) and the list of expired keys.  Read failures propagate. -/
def collectLive (c : Codec) (compression : Bool) (wal : List Nat) (now : Time) :
    IndexMap → Except Unit (List LiveEntry × List (List Nat))
  | [] => .ok ([], [])
  | (k, ie) :: t =>
    if is_expired_at ie.expires_at now then
      (collectLive c compression wal now t).map (fun p => (p.1, k :: p.2))
    else
      match read_record_at c compression wal ie.pointer.offset with
      | .error () => .error ()
      | .ok rec =>
        match rec.entry with
        | .put _ v e =>
          (collectLive c compression wal now t).map (fun p => ((k, v, e) :: p.1, p.2))
        | .delete _ => collectLive c compression wal now t

/-- Model of `CrabKv::run_compaction` (src/engine.rs lines 352-395). -/
def run_compaction (c : Codec) (compression : Bool) (s : EngineState) (now : Time) :
    Except Unit EngineState :=
  match collectLive c compression s.wal now s.index with
  | .error () => .error ()
  | .ok (entries, expired) =>
    let cache1 := expired.foldl (fun oc k => oc.map (fun cm => cacheRemove cm k)) s.cache
    let rw := walRewrite c compression (sortByKey entries)
    .ok { index := rw.2, wal := rw.1, cache := cache1,
          stale_bytes := 0, total_bytes := rw.1.length }

/-- Model of `CrabKv::compact` (src/engine.rs lines 301-307). -/
def engine_compact (c : Codec) (cfg : EngineConfig) (s : EngineState) (now : Time) :
    Except Unit EngineState :=
  run_compaction c cfg.compression s now

/-- Model of `CrabKv::maybe_compact_async` (src/engine.rs lines 339-350): when
the predicate fires, either send a trigger (async mode: the state is unchanged
by this operation; the worker runs later under its own lock) or compact
inline.  The compaction predicate is a parameter `sc`, instantiated with
`should_compact` where its float-insensitive values suffice. -/
def maybe_compact_async (c : Codec) (cfg : EngineConfig) (sc : Nat → Nat → Bool)
    (s : EngineState) (now : Time) : Except Unit EngineState :=
  if sc s.total_bytes s.stale_bytes then
    if cfg.async_compaction then .ok s
    else run_compaction c cfg.compression s now
  else .ok s

/-- Locked section of `CrabKv::put_with_ttl` (src/engine.rs lines 144-169):
append the Put record, bump `total_bytes`, insert into the index crediting a
superseded record to `stale_bytes`, refresh the cache.  The compaction trigger
follows separately. -/
def corePut (c : Codec) (compression : Bool) (s : EngineState)
    (key value : List Nat) (expires_at : Option Time) : EngineState :=
  let ap := walAppend c compression s.wal (.put key value expires_at)
  { index := ainsert s.index key ⟨ap.2, expires_at⟩,
    wal := ap.1,
    cache := s.cache.map (fun cm => cachePut cm key ⟨value, expires_at⟩),
    stale_bytes := s.stale_bytes +
      (match alookup s.index key with
       | some p => p.pointer.record_len
       | none => 0),
    total_bytes := s.total_bytes + ap.2.record_len }

/-- Model of `CrabKv::put_with_ttl` (src/engine.rs lines 126-171). -/
def put_with_ttl (c : Codec) (cfg : EngineConfig) (sc : Nat → Nat → Bool)
    (s : EngineState) (key value : List Nat) (ttl : Option Nat) (now : Time) :
    Except Unit EngineState :=
  let expires_at := ttl.map (fun d => now + d)
  match cfg.write_back_cache, s.cache with
  | true, some cache =>
    .ok { s with cache := some (cachePut cache key ⟨value, expires_at⟩) }
  | _, _ =>
    maybe_compact_async c cfg sc (corePut c cfg.compression s key value expires_at) now

/-- Model of `CrabKv::put` (src/engine.rs lines 120-123). -/
def engine_put (c : Codec) (cfg : EngineConfig) (sc : Nat → Nat → Bool)
    (s : EngineState) (key value : List Nat) (now : Time) : Except Unit EngineState :=
  put_with_ttl c cfg sc s key value cfg.default_ttl now

/-- One iteration of the `put_batch` update loop (src/engine.rs lines
198-216). -/
def putBatchStep (now : Time) (s : EngineState)
    (ep : (List Nat × List Nat × Option Nat) × ValuePointer) : EngineState :=
  let key := ep.1.1
  let value := ep.1.2.1
  let expires_at := ep.1.2.2.map (fun d => now + d)
  let prev := alookup s.index key
  { s with
    total_bytes := s.total_bytes + ep.2.record_len,
    index := ainsert s.index key ⟨ep.2, expires_at⟩,
    stale_bytes := s.stale_bytes +
      (match prev with | some p => p.pointer.record_len | none => 0),
    cache := s.cache.map (fun cm => cachePut cm key ⟨value, expires_at⟩) }

/-- Model of `CrabKv::put_batch` (src/engine.rs lines 174-219). -/
def put_batch (c : Codec) (cfg : EngineConfig) (sc : Nat → Nat → Bool)
    (s : EngineState) (entries : List (List Nat × List Nat × Option Nat))
    (now : Time) : Except Unit EngineState :=
  if entries.isEmpty then .ok s
  else
    let walEntries : List WalEntry :=
      entries.map (fun kvt => .put kvt.1 kvt.2.1 (kvt.2.2.map (fun d => now + d)))
    let ab := walAppendBatch c cfg.compression s.wal walEntries
    let s1 := (entries.zip ab.2).foldl (putBatchStep now) { s with wal := ab.1 }
    maybe_compact_async c cfg sc s1 now

/-- Sequential view of the `put_batch` update loop: one `corePut` per entry.
`put_batch` computes all pointers in one `append_batch` first, but since the
index/cache/counter updates never read the log, the resulting state is the
same as appending entry by entry (proved below). -/
def seqPuts (c : Codec) (compression : Bool) (now : Time) :
    EngineState → List (List Nat × List Nat × Option Nat) → EngineState
  | s, [] => s
  | s, kvt :: rest =>
    seqPuts c compression now
      (corePut c compression s kvt.1 kvt.2.1 (kvt.2.2.map (fun d => now + d))) rest

/-- Model of `CrabKv::delete` (src/engine.rs lines 277-298). -/
def engine_delete (c : Codec) (cfg : EngineConfig) (sc : Nat → Nat → Bool)
    (s : EngineState) (key : List Nat) (now : Time) : Except Unit EngineState :=
  let ap := walAppend c cfg.compression s.wal (.delete key)
  let total1 := s.total_bytes + ap.2.record_len
  let prev := alookup s.index key
  let index1 := match prev with | some _ => aerase s.index key | none => s.index
  let stale1 := s.stale_bytes +
    (match prev with | some p => p.pointer.record_len | none => 0)
  let cache1 := s.cache.map (fun cm => cacheRemove cm key)
  maybe_compact_async c cfg sc
    { index := index1, wal := ap.1, cache := cache1,
      stale_bytes := stale1, total_bytes := total1 } now

/-- Model of `CrabKv::expire_key` (src/engine.rs lines 309-328): the
lazy-expiry path of `get` (no compaction trigger here). -/
def expire_key (c : Codec) (cfg : EngineConfig) (s : EngineState) (key : List Nat) :
    Except Unit (Option (List Nat) × EngineState) :=
  match alookup s.index key with
  | some entry =>
    let index1 := aerase s.index key
    let stale1 := s.stale_bytes + entry.pointer.record_len
    let cache1 := s.cache.map (fun cm => cacheRemove cm key)
    let ap := walAppend c cfg.compression s.wal (.delete key)
    .ok (none, { index := index1, wal := ap.1, cache := cache1,
                 stale_bytes := stale1, total_bytes := s.total_bytes + ap.2.record_len })
  | none => .ok (none, s)

/-- Tail of `CrabKv::get` (src/engine.rs lines 257-270): read the record at
the live index entry's pointer, populate the cache with the decoded value and
the index entry's expiry, and return the value; a Delete record at the pointer
falls through to `Ok(None)` defensively. -/
def getReadPath (c : Codec) (cfg : EngineConfig) (s : EngineState) (key : List Nat)
    (entry : IndexEntry) : Except Unit (Option (List Nat) × EngineState) :=
  match read_record_at c cfg.compression s.wal entry.pointer.offset with
  | .error () => .error ()
  | .ok rec =>
    match rec.entry with
    | .put _ v _ =>
      let cache1 := s.cache.map (fun cm => cachePut cm key ⟨v, entry.expires_at⟩)
      .ok (some v, { s with cache := cache1 })
    | .delete _ => .ok (none, s)

/-- Index-hit tail of `CrabKv::get`: expiry check (lazy expiry), then the
second cache consultation, then the WAL read. -/
def getIndexPath (c : Codec) (cfg : EngineConfig) (s : EngineState) (key : List Nat)
    (now : Time) : Except Unit (Option (List Nat) × EngineState) :=
  match alookup s.index key with
  | none => .ok (none, s)
  | some entry =>
    if is_expired_at entry.expires_at now then expire_key c cfg s key
    else
      match s.cache with
      | some cache =>
        let hit := cacheGet cache key
        match hit.1 with
        | some ce =>
          if !is_expired_at ce.expires_at now then
            .ok (some ce.value, { s with cache := some hit.2 })
          else getReadPath c cfg { s with cache := some hit.2 } key entry
        | none => getReadPath c cfg { s with cache := some hit.2 } key entry
      | none => getReadPath c cfg s key entry

/-- Model of `CrabKv::get` (src/engine.rs lines 222-274). -/
def engine_get (c : Codec) (cfg : EngineConfig) (s : EngineState) (key : List Nat)
    (now : Time) : Except Unit (Option (List Nat) × EngineState) :=
  if cfg.write_back_cache then
    match s.cache with
    | some cache =>
      let hit := cacheGet cache key
      match hit.1 with
      | some ce =>
        if !is_expired_at ce.expires_at now then
          .ok (some ce.value, { s with cache := some hit.2 })
        else .ok (none, { s with cache := some hit.2 })
      | none => getIndexPath c cfg { s with cache := some hit.2 } key now
    | none => getIndexPath c cfg s key now
  else getIndexPath c cfg s key now

/-- Result of the live-index-hit tail of `get` when the record at the pointer
holds value `v`: the cached value when the cache has an unexpired hit,
otherwise the value read from the log. -/
def liveGetValue (v : List Nat) (cache : Option CacheModel) (k : List Nat)
    (now : Time) : List Nat :=
  match cache with
  | some cm =>
    match (cacheGet cm k).1 with
    | some ce => if is_expired_at ce.expires_at now = false then ce.value else v
    | none => v
  | none => v

/-- Model of `CrabKv::flush` (src/engine.rs lines 69-117). -/
def engine_flush (c : Codec) (cfg : EngineConfig) (s : EngineState) :
    Except Unit EngineState :=
  if !cfg.write_back_cache then .ok s
  else
    match s.cache with
    | none => .ok s
    | some cache =>
      let fl := cacheFlushWriteBuffer cache
      let s1 := { s with cache := some fl.2 }
      if fl.1.isEmpty then .ok s1
      else
        let walEntries : List WalEntry :=
          fl.1.map (fun ke => .put ke.1 ke.2.value none)
        let ab := walAppendBatch c cfg.compression s1.wal walEntries
        let acc := (fl.1.zip ab.2).foldl
          (fun ts kp =>
            (ts.1 + kp.2.record_len,
             ts.2 + (match alookup s.index kp.1.1 with
                     | some prev => prev.pointer.record_len
                     | none => 0)))
          (s.total_bytes, s.stale_bytes)
        .ok { s1 with wal := ab.1, total_bytes := acc.1, stale_bytes := acc.2 }

/-- Model of `CrabKvBuilder::build` (src/engine.rs lines 457-521): open the
WAL, replay it to recover index and stale counter, set `total_bytes` from the
file size, and create the cache per configuration.  `cap` is the configured
`cache_capacity`. -/
def buildState (c : Codec) (cfg : EngineConfig) (wal : List Nat) (cap : Option Nat) :
    Except Unit EngineState :=
  match load_index c cfg.compression wal with
  | .error () => .error ()
  | .ok (idx, stale) =>
    .ok { index := idx, wal := wal,
          cache := cap.map (fun n => ⟨[], [], cfg.write_back_cache, n⟩),
          stale_bytes := stale, total_bytes := wal.length }

/-- Concatenated encodings of a list of entries: the byte contents of a log
file produced purely by appends of these entries. -/
def encodeAll (c : Codec) (compression : Bool) : List WalEntry → List Nat
  | [] => []
  | e :: es => encode_entry c compression e ++ encodeAll c compression es

/-- Well-formedness of an entry as the engine produces it: UTF-8 key and
value, u32-sized lengths and record, and an expiry whose seconds fit the
platform SystemTime range (timespec i64 seconds).  Every entry a Rust caller
can pass satisfies this: an `expires_at : SystemTime` cannot exceed that
range. -/
def GoodEntry (c : Codec) (compression : Bool) (e : WalEntry) : Prop :=
  utf8Valid e.key_bytes = true ∧ utf8Valid e.value_bytes = true ∧
  HEADER_SIZE + e.key_bytes.length + (storedValue c compression e).length
      < 4294967296 ∧
  ∀ t ∈ e.expiry, t / nsPerSec < 9223372036854775808

/-- Specification-side mirror of the `load_index` loop on a canonical log:
fold the decoded records (entries truncated to whole-second expiries) over the
index, tracking stale bytes and the running offset. -/
def applyEntries (c : Codec) (compression : Bool) :
    List WalEntry → Nat → IndexMap → Nat → IndexMap × Nat × Nat
  | [], off, idx, stale => (idx, stale, off)
  | e :: es, off, idx, stale =>
    let rec1 := truncRecordOf c compression e
    let step := applyRecord idx stale rec1 off
    applyEntries c compression es (off + rec1.record_len) step.1 step.2

/-- Index entry with its expiry truncated to whole seconds: what a replay of
the log reconstructs for a live in-memory entry. -/
def truncIE (ie : IndexEntry) : IndexEntry :=
  ⟨ie.pointer, ie.expires_at.map truncSec⟩

/-- Pointer resolution for one (key, entry) pair against a log: the pointer
names a position at which the encoding of a well-formed Put with that key and
the entry's expiry is stored. -/
def PtrResAt (c : Codec) (compression : Bool) (wal : List Nat)
    (p : List Nat × IndexEntry) : Prop :=
  ∃ v, GoodEntry c compression (.put p.1 v p.2.expires_at) ∧
    p.2.pointer.offset
        + (encode_entry c compression (.put p.1 v p.2.expires_at)).length
      ≤ wal.length ∧
    wal.drop p.2.pointer.offset =
      encode_entry c compression (.put p.1 v p.2.expires_at)
        ++ wal.drop (p.2.pointer.offset
            + (encode_entry c compression (.put p.1 v p.2.expires_at)).length)

/-- Pointer resolution for every index entry.  This is invariant under the
engine's operations and is what makes `read_record` at an index pointer
return the live value. -/
def PtrRes (c : Codec) (compression : Bool) (s : EngineState) : Prop :=
  ∀ p ∈ s.index, PtrResAt c compression s.wal p

/-- Inductive invariant tying the engine state to its log: resolving pointers
and a canonical log (a concatenation of well-formed entry encodings) whose
replay agrees with the in-memory index up to whole-second truncation of
expiries. -/
def ReplayInv (c : Codec) (s : EngineState) : Prop :=
  PtrRes c false s ∧
  ∃ es, (∀ e ∈ es, GoodEntry c false e) ∧ s.wal = encodeAll c false es ∧
    ∀ k, alookup (applyEntries c false es 0 [] 0).1 k =
      (alookup s.index k).map truncIE

/-- States reachable from a fresh directory by successful put / put_with_ttl /
put_batch / delete operations outside write-back buffering (claim C3's
operation set; `put` delegates to `put_with_ttl` with the configured default
TTL, and each mutator may run its inline compaction trigger).  The side
conditions on keys, values and expiries state that the arguments are genuine
Rust strings (valid UTF-8, u32-sized) and that expiries stay inside the u64
seconds range. -/
inductive ReachOps (c : Codec) (cfg : EngineConfig) (sc : Nat → Nat → Bool) :
    EngineState → Prop where
  | init (cap : Option Nat) (s : EngineState)
      (h : buildState c cfg [] cap = .ok s) : ReachOps c cfg sc s
  | put (s s1 : EngineState) (key value : List Nat) (ttl : Option Nat) (now : Time)
      (hs : ReachOps c cfg sc s)
      (hg : GoodEntry c false (.put key value (ttl.map (fun d => now + d))))
      (hop : put_with_ttl c cfg sc s key value ttl now = .ok s1) :
      ReachOps c cfg sc s1
  | putDefault (s s1 : EngineState) (key value : List Nat) (now : Time)
      (hs : ReachOps c cfg sc s)
      (hg : GoodEntry c false (.put key value (cfg.default_ttl.map (fun d => now + d))))
      (hop : engine_put c cfg sc s key value now = .ok s1) :
      ReachOps c cfg sc s1
  | putBatch (s s1 : EngineState) (entries : List (List Nat × List Nat × Option Nat))
      (now : Time) (hs : ReachOps c cfg sc s)
      (hg : ∀ kvt ∈ entries,
        GoodEntry c false (.put kvt.1 kvt.2.1 (kvt.2.2.map (fun d => now + d))))
      (hop : put_batch c cfg sc s entries now = .ok s1) :
      ReachOps c cfg sc s1
  | del (s s1 : EngineState) (key : List Nat) (now : Time)
      (hs : ReachOps c cfg sc s)
      (hg : GoodEntry c false (.delete key))
      (hop : engine_delete c cfg sc s key now = .ok s1) :
      ReachOps c cfg sc s1


end CrabKV

namespace CrabKV

theorem toLE_length (n w : Nat) : (toLE n w).length = w := by
  induction w generalizing n with
  | zero => rfl
  | succ k ih => simp [toLE, ih]

theorem fromLE_toLE (n w : Nat) : fromLE (toLE n w) = n % 256 ^ w := by
  induction w generalizing n with
  | zero => simp [toLE, fromLE, Nat.mod_one]
  | succ k ih =>
    simp only [toLE, fromLE, ih]
    rw [Nat.pow_succ', Nat.mod_mul, Nat.mod_mod_of_dvd n (dvd_refl 256)]

theorem toLE_lt (n w : Nat) : ∀ b ∈ toLE n w, b < 256 := by
  induction w generalizing n with
  | zero => simp [toLE]
  | succ k ih =>
    intro b hb
    simp only [toLE, List.mem_cons] at hb
    rcases hb with h | h
    · omega
    · exact ih _ b h

theorem readExact_append (xs rest : List Nat) :
    readExact xs.length (xs ++ rest) = some (xs, rest) := by
  simp [readExact, List.take_append, List.drop_append]

theorem readExact_eq (n : Nat) (xs rest : List Nat) (h : xs.length = n) :
    readExact n (xs ++ rest) = some (xs, rest) := by
  subst h; exact readExact_append xs rest

theorem readExact_one (b : Nat) (r : List Nat) : readExact 1 (b :: r) = some ([b], r) := by
  simp [readExact]

theorem stored_roundtrip (c : Codec) (compression : Bool) (v : List Nat) :
    (if compression && !(if compression && !v.isEmpty then c.compress v else v).isEmpty
     then c.decompress (if compression && !v.isEmpty then c.compress v else v)
     else some (if compression && !v.isEmpty then c.compress v else v)) = some v := by
  by_cases hc : compression
  · by_cases hv : v = []
    · simp [hc, hv]
    · simp [hc, hv, c.decompress_compress, c.compress_ne v hv, List.isEmpty_iff]
  · simp [hc]

/-- Decoding an encoded entry from the front of a stream succeeds, consumes
exactly the encoding, and yields the entry with its expiry truncated to whole
seconds; the record's `value_len` is the on-disk payload length. -/
theorem read_record_internal_encode (c : Codec) (compression : Bool) (e : WalEntry)
    (rest : List Nat)
    (hkey : utf8Valid e.key_bytes = true)
    (hval : utf8Valid e.value_bytes = true)
    (hklen : e.key_bytes.length < 4294967296)
    (hvlen : (storedValue c compression e).length < 4294967296)
    (hexp : ∀ t ∈ e.expiry, t / nsPerSec < 9223372036854775808) :
    read_record_internal c compression (encode_entry c compression e ++ rest) =
      .ok (some (truncRecordOf c compression e, rest)) := by
  have h256_4 : (256 : Nat) ^ 4 = 4294967296 := by norm_num
  have h256_8 : (256 : Nat) ^ 8 = 18446744073709551616 := by norm_num
  cases e with
  | put key value exp =>
    simp only [WalEntry.key_bytes, WalEntry.value_bytes, WalEntry.expiry] at *
    have hk4 : fromLE (toLE key.length 4) = key.length := by
      rw [fromLE_toLE, h256_4]; exact Nat.mod_eq_of_lt hklen
    have hv4 : fromLE (toLE (storedValue c compression (.put key value exp)).length 4)
        = (storedValue c compression (.put key value exp)).length := by
      rw [fromLE_toLE, h256_4]; exact Nat.mod_eq_of_lt hvlen
    simp only [truncRecordOf, WalEntry.key_bytes]
    simp only [encode_entry, WalEntry.opByte, WalEntry.key_bytes, WalEntry.value_bytes,
      WalEntry.expiry, List.cons_append, List.append_assoc]
    simp only [read_record_internal]
    simp only [true_or, or_true, if_true, reduceIte]
    rw [readExact_eq 4 _ _ (toLE_length _ 4)]
    dsimp only
    simp only [hk4]
    rw [readExact_eq 4 _ _ (toLE_length _ 4)]
    dsimp only
    simp only [hv4]
    rw [readExact_one]
    dsimp only
    rw [readExact_eq 8 _ _ (toLE_length _ 8)]
    dsimp only
    rw [readExact_eq key.length _ _ rfl]
    dsimp only
    rw [if_pos hkey]
    rw [readExact_eq (storedValue c compression (.put key value exp)).length _ _ rfl]
    dsimp only
    have hsr := stored_roundtrip c compression value
    simp only [storedValue, WalEntry.value_bytes] at hsr ⊢
    rw [hsr]
    dsimp only
    rw [if_pos hval]
    cases exp with
    | none => simp [truncEntry, HEADER_SIZE, checkedExpiry]
    | some t =>
      have hsec63 : t / nsPerSec < 9223372036854775808 := hexp t rfl
      have ht : fromLE (toLE (t / nsPerSec) 8) = t / nsPerSec := by
        rw [fromLE_toLE, h256_8]
        exact Nat.mod_eq_of_lt (lt_trans hsec63 (by norm_num))
      simp [truncEntry, truncSec, HEADER_SIZE, ht, checkedExpiry, hsec63]
  | delete key =>
    simp only [WalEntry.key_bytes, WalEntry.value_bytes, WalEntry.expiry] at *
    have hk4 : fromLE (toLE key.length 4) = key.length := by
      rw [fromLE_toLE, h256_4]; exact Nat.mod_eq_of_lt hklen
    have hsv : storedValue c compression (.delete key) = [] := by
      simp [storedValue, WalEntry.value_bytes]
    simp only [truncRecordOf, WalEntry.key_bytes, hsv]
    simp only [encode_entry, WalEntry.opByte, WalEntry.key_bytes, WalEntry.value_bytes,
      WalEntry.expiry, hsv, List.cons_append, List.append_assoc]
    simp only [read_record_internal]
    simp only [true_or, or_true, if_true, reduceIte]
    rw [readExact_eq 4 _ _ (toLE_length _ 4)]
    dsimp only
    simp only [hk4]
    rw [readExact_eq 4 _ _ (toLE_length _ 4)]
    dsimp only
    rw [readExact_one]
    dsimp only
    rw [readExact_eq 8 _ _ (toLE_length _ 8)]
    dsimp only
    simp only [List.append_nil, List.nil_append]
    rw [readExact_eq key.length _ _ rfl]
    dsimp only
    rw [if_pos hkey]
    simp [truncEntry, HEADER_SIZE, fromLE, fromLE_toLE, checkedExpiry]

theorem truncEntry_eq_self (e : WalEntry) (h : ∀ t ∈ e.expiry, t % nsPerSec = 0) :
    truncEntry e = e := by
  cases e with
  | delete k => rfl
  | put k v exp =>
    cases exp with
    | none => rfl
    | some t =>
      have ht := h t rfl
      simp only [truncEntry, Option.map_some', truncSec]
      rw [Nat.div_mul_cancel (Nat.dvd_of_mod_eq_zero ht)]

/-- Claim C5 as stated is false: the codec stores the expiry as whole seconds,
so a Put whose `expires_at` has a sub-second component does not round-trip.
Concretely, for the Put with key "k", value "v" and expiry 1.5 s after the
epoch, decode of encode returns the same Put with expiry 1.0 s, a different
entry. -/
theorem C5_counterexample :
    read_record_internal idCodec false
        (encode_entry idCodec false (.put [107] [118] (some 1500000000))) =
      .ok (some (⟨.put [107] [118] (some 1000000000), 0, 20, 1⟩, [])) ∧
    WalEntry.put [107] [118] (some 1000000000) ≠
      WalEntry.put [107] [118] (some 1500000000) := by
  exact ⟨by rfl, by decide⟩

/-- Claim C5, amended: decoding the encoding of an entry (with the same
compression flag and codec) returns the entry unchanged for every Delete and
for every Put whose expiry is absent or a whole number of seconds since the
epoch; sub-second expiry components are truncated.  Key and value are UTF-8,
the on-disk lengths fit in the u32 header fields, and the expiry seconds fit
the platform SystemTime range (below 2^63; beyond it no `SystemTime` exists
to encode, and the decoder rejects such a header with "ttl overflow"). -/
theorem C5_roundtrip (c : Codec) (compression : Bool) (e : WalEntry)
    (hkey : utf8Valid e.key_bytes = true)
    (hval : utf8Valid e.value_bytes = true)
    (hklen : e.key_bytes.length < 4294967296)
    (hvlen : (storedValue c compression e).length < 4294967296)
    (hexp : ∀ t ∈ e.expiry, t / nsPerSec < 9223372036854775808)
    (hwhole : ∀ t ∈ e.expiry, t % nsPerSec = 0) :
    (read_record_internal c compression (encode_entry c compression e)).map
        (Option.map (fun p => p.1.entry)) = .ok (some e) := by
  have h := read_record_internal_encode c compression e [] hkey hval hklen hvlen hexp
  rw [List.append_nil] at h
  rw [h]
  simp [Except.map, truncRecordOf, truncEntry_eq_self e hwhole]

theorem C5_roundtrip_witness :
    (read_record_internal idCodec false
        (encode_entry idCodec false (.put [107] [118] (some 2000000000)))).map
        (Option.map (fun p => p.1.entry)) =
      .ok (some (.put [107] [118] (some 2000000000))) := by
  refine C5_roundtrip idCodec false _ (by decide) (by decide) (by decide) (by decide)
    ?_ ?_
  · intro t ht
    simp only [WalEntry.expiry, Option.mem_def, Option.some.injEq] at ht
    subst ht; decide
  · intro t ht
    simp only [WalEntry.expiry, Option.mem_def, Option.some.injEq] at ht
    subst ht; decide

/-- Claim C6 fails on the code: with compression enabled, `Wal::append` builds
the returned pointer from the uncompressed value length, while the record
header (as `load_index`/decode reads it back) carries the compressed on-disk
length.  For the Put with key "k" and value "a" under the Snappy model the
pointer says 1 where the header says 3. -/
theorem C6_value_len_mismatch :
    (walAppend snappyCodec true [] (.put [107] [97] none)).2.value_len = 1 ∧
    read_record_internal snappyCodec true
        (walAppend snappyCodec true [] (.put [107] [97] none)).1 =
      .ok (some (⟨.put [107] [97] none, 0, 22, 3⟩, [])) ∧
    (1 : Nat) ≠ 3 := by
  exact ⟨rfl, by rfl, by decide⟩

theorem alookup_aerase_self {β : Type} (l : List (List Nat × β)) (k : List Nat) :
    alookup (aerase l k) k = none := by
  induction l with
  | nil => rfl
  | cons h t ih =>
    obtain ⟨k1, v⟩ := h
    by_cases hk : k1 = k <;> simp [aerase, alookup, hk, ih]

theorem alookup_aerase_ne {β : Type} (l : List (List Nat × β)) (k k1 : List Nat)
    (h : k1 ≠ k) : alookup (aerase l k) k1 = alookup l k1 := by
  induction l with
  | nil => rfl
  | cons hd t ih =>
    obtain ⟨k2, v⟩ := hd
    by_cases h2 : k2 = k
    · subst h2
      have h21 : k2 ≠ k1 := fun he => h (he ▸ rfl)
      simp [aerase, alookup, ih, h21]
    · simp [aerase, alookup, h2, ih]

theorem cacheGetLru_hit (cm : CacheModel) (k : List Nat) (e : CacheEntry)
    (h : alookup cm.lru k = some e) :
    cacheGetLru cm k = (some e, { cm with lru := (k, e) :: aerase cm.lru k }) := by
  unfold cacheGetLru; rw [h]

theorem cacheGetLru_miss (cm : CacheModel) (k : List Nat)
    (h : alookup cm.lru k = none) : cacheGetLru cm k = (none, cm) := by
  unfold cacheGetLru; rw [h]

theorem cacheGet_buffer_hit (cm : CacheModel) (k : List Nat) (e : CacheEntry)
    (hwb : cm.write_back = true) (hb : alookup cm.write_buffer k = some e) :
    cacheGet cm k = (some e, cm) := by
  unfold cacheGet; rw [hwb, if_pos rfl, hb]

theorem cacheGet_no_buffer (cm : CacheModel) (k : List Nat)
    (h : cm.write_back = false ∨ alookup cm.write_buffer k = none) :
    cacheGet cm k = cacheGetLru cm k := by
  unfold cacheGet
  rcases h with h | h
  · simp [h]
  · by_cases hwb : cm.write_back = true
    · simp [hwb, h]
    · simp [hwb]

/-- A cache hit survives the hit itself: `Cache::get` only promotes recency. -/
theorem cacheGet_fst_stable (cm : CacheModel) (k : List Nat) (ce : CacheEntry)
    (h : (cacheGet cm k).1 = some ce) :
    (cacheGet (cacheGet cm k).2 k).1 = some ce := by
  by_cases hwb : cm.write_back = true
  · cases hb : alookup cm.write_buffer k with
    | some e =>
      rw [cacheGet_buffer_hit cm k e hwb hb] at h ⊢
      dsimp only at h ⊢
      rw [cacheGet_buffer_hit cm k e hwb hb]
      exact h
    | none =>
      rw [cacheGet_no_buffer cm k (Or.inr hb)] at h ⊢
      cases hl : alookup cm.lru k with
      | none => rw [cacheGetLru_miss cm k hl] at h; simp at h
      | some e =>
        rw [cacheGetLru_hit cm k e hl] at h ⊢
        dsimp only at h ⊢
        rw [cacheGet_no_buffer { cm with lru := (k, e) :: aerase cm.lru k } k (Or.inr hb)]
        rw [cacheGetLru_hit { cm with lru := (k, e) :: aerase cm.lru k } k e
          (by simp [alookup])]
        exact h
  · have hwbf : cm.write_back = false := by
      revert hwb; cases cm.write_back <;> simp
    rw [cacheGet_no_buffer cm k (Or.inl hwbf)] at h ⊢
    cases hl : alookup cm.lru k with
    | none => rw [cacheGetLru_miss cm k hl] at h; simp at h
    | some e =>
      rw [cacheGetLru_hit cm k e hl] at h ⊢
      dsimp only at h ⊢
      rw [cacheGet_no_buffer { cm with lru := (k, e) :: aerase cm.lru k } k (Or.inl hwbf)]
      rw [cacheGetLru_hit { cm with lru := (k, e) :: aerase cm.lru k } k e
        (by simp [alookup])]
      exact h

/-- Claim C9: in write-back mode, a cache hit whose expiry has passed makes
`get` return None straight from the cache path: the state keeps its index and
WAL unchanged (no tombstone is appended) and the cached entry is still present
afterwards — even though the index holds a live, non-expired entry for the
same key. -/
theorem C9_wb_expired_cache_hit (c : Codec) (cfg : EngineConfig) (s : EngineState)
    (cache : CacheModel) (key : List Nat) (now : Time) (ce : CacheEntry)
    (entry : IndexEntry)
    (hwb : cfg.write_back_cache = true)
    (hc : s.cache = some cache)
    (hhit : (cacheGet cache key).1 = some ce)
    (hexp : is_expired_at ce.expires_at now = true)
    (hidx : alookup s.index key = some entry)
    (hlive : is_expired_at entry.expires_at now = false) :
    engine_get c cfg s key now = .ok (none, { s with cache := some (cacheGet cache key).2 }) ∧
    (cacheGet (cacheGet cache key).2 key).1 = some ce ∧
    ({ s with cache := some (cacheGet cache key).2 }).index = s.index ∧
    ({ s with cache := some (cacheGet cache key).2 }).wal = s.wal := by
  refine ⟨?_, cacheGet_fst_stable cache key ce hhit, rfl, rfl⟩
  unfold engine_get
  rw [hwb, if_pos rfl, hc]
  simp only [hhit, hexp]
  rfl

theorem C9_wb_expired_cache_hit_witness :
    engine_get idCodec ⟨none, false, true, false⟩
        ⟨[([107], ⟨⟨0, 1, 20⟩, some 100⟩)],
         encode_entry idCodec false (.put [107] [119] (some 100)),
         some ⟨[], [([107], ⟨[118], some 5⟩)], true, 100⟩, 0, 20⟩ [107] 10 =
      .ok (none,
        ⟨[([107], ⟨⟨0, 1, 20⟩, some 100⟩)],
         encode_entry idCodec false (.put [107] [119] (some 100)),
         some ⟨[], [([107], ⟨[118], some 5⟩)], true, 100⟩, 0, 20⟩) := by
  have h := C9_wb_expired_cache_hit idCodec ⟨none, false, true, false⟩
    ⟨[([107], ⟨⟨0, 1, 20⟩, some 100⟩)],
     encode_entry idCodec false (.put [107] [119] (some 100)),
     some ⟨[], [([107], ⟨[118], some 5⟩)], true, 100⟩, 0, 20⟩
    ⟨[], [([107], ⟨[118], some 5⟩)], true, 100⟩ [107] 10 ⟨[118], some 5⟩
    ⟨⟨0, 1, 20⟩, some 100⟩ rfl rfl (by rfl) (by decide) (by rfl) (by decide)
  exact h.1

/-- Claim C1 fails on the code: `flush` maps every drained (key, entry) pair to
`(key, entry.value, None)`, so the appended Put carries `expires_at = None`
rather than the buffered expiry, and the index is never updated to the new
pointers.  Concretely: write-back engine, buffer holds key "k" with value "v"
and expiry 5 s; after `flush` the single WAL record decodes to a Put with no
expiry, and the index still has no entry for "k". -/
theorem C1_flush_counterexample :
    (engine_flush idCodec ⟨none, false, true, false⟩
        ⟨[], [],
         some ⟨[([107], ⟨[118], some 5000000000⟩)],
               [([107], ⟨[118], some 5000000000⟩)], true, 100⟩, 0, 0⟩).map
      (fun s => (read_record_internal idCodec false s.wal, alookup s.index [107],
                 s.total_bytes)) =
      .ok (.ok (some (⟨.put [107] [118] none, 0, 20, 1⟩, [])), none, 20) := by
  rfl

/-- Claim C10, amended: for a key absent from the index, `delete` succeeds,
appends a Delete record, and increases `total_bytes` by that record's length,
leaving index and `stale_bytes` unchanged (the key is also dropped from the
cache) — provided the compaction trigger does not fire on the post-append
counters, or async compaction is configured (an inline compaction rewrites the
log and resets both counters). -/
theorem C10_delete_absent (c : Codec) (cfg : EngineConfig) (sc : Nat → Nat → Bool)
    (s : EngineState) (key : List Nat) (now : Time)
    (habs : alookup s.index key = none)
    (htrig : sc (s.total_bytes + (encode_entry c cfg.compression (.delete key)).length
        % 4294967296) s.stale_bytes = false ∨ cfg.async_compaction = true) :
    engine_delete c cfg sc s key now =
      .ok { s with
        wal := s.wal ++ encode_entry c cfg.compression (.delete key),
        cache := s.cache.map (fun cm => cacheRemove cm key),
        total_bytes := s.total_bytes +
          (encode_entry c cfg.compression (.delete key)).length % 4294967296 } := by
  unfold engine_delete
  simp only [habs, walAppend, Nat.add_zero]
  unfold maybe_compact_async
  rcases htrig with h | h
  · simp only [h, Bool.false_eq_true, if_false]
  · rw [h]
    split <;> rfl

theorem C10_delete_absent_witness :
    engine_delete idCodec ⟨none, false, false, false⟩ should_compact
        ⟨[], [], none, 0, 0⟩ [107] 0 =
      .ok ⟨[], encode_entry idCodec false (.delete [107]), none, 0, 19⟩ := by
  have h := C10_delete_absent idCodec ⟨none, false, false, false⟩ should_compact
    ⟨[], [], none, 0, 0⟩ [107] 0 (by rfl) (Or.inl (by decide))
  simpa using h

/-- Claim C10 as stated is false when the post-append counters trip the
compaction heuristic under synchronous compaction: the inline compaction then
rewrites the log and resets both counters.  With `stale_bytes = 9437000`
(> 8 MiB, so the integer disjunct of `should_compact` decides the result
independently of its floating-point part) and an empty index, deleting the
absent key "k" leaves `total_bytes = 0` (not old + 19) and `stale_bytes = 0`
(not unchanged).  Such counters are reachable: `expire_key` and `flush` raise
`stale_bytes` without evaluating the trigger. -/
theorem C10_counterexample :
    engine_delete idCodec ⟨none, false, false, false⟩ should_compact
        ⟨[], [], none, 9437000, 9500000⟩ [107] 0 = .ok ⟨[], [], none, 0, 0⟩ ∧
    (0 : Nat) ≠ 9437000 ∧ (0 : Nat) ≠ 9500000 + 19 := by
  refine ⟨by rfl, by decide, by decide⟩

/-- Claim C4 fails on the code: `flush` credits the (never-updated) prior
index entry's record length to `stale_bytes` on every flush, so repeated
put-then-flush of a shorter value drives `stale_bytes` past `total_bytes`.
Starting from a log holding Put("k", "longvalue") (28 bytes) and flushing the
buffered Put("k", "x") (20 bytes) four times yields stale 112 > total 108. -/
theorem C4_counterexample :
    (do
      let s0 ← buildState idCodec ⟨none, false, true, false⟩
        (encode_entry idCodec false
          (.put [107] [108, 111, 110, 103, 118, 97, 108, 117, 101] none)) (some 100)
      let s1 ← put_with_ttl idCodec ⟨none, false, true, false⟩ should_compact s0
        [107] [120] none 0
      let s2 ← engine_flush idCodec ⟨none, false, true, false⟩ s1
      let s3 ← put_with_ttl idCodec ⟨none, false, true, false⟩ should_compact s2
        [107] [120] none 0
      let s4 ← engine_flush idCodec ⟨none, false, true, false⟩ s3
      let s5 ← put_with_ttl idCodec ⟨none, false, true, false⟩ should_compact s4
        [107] [120] none 0
      let s6 ← engine_flush idCodec ⟨none, false, true, false⟩ s5
      let s7 ← put_with_ttl idCodec ⟨none, false, true, false⟩ should_compact s6
        [107] [120] none 0
      let s8 ← engine_flush idCodec ⟨none, false, true, false⟩ s7
      pure (s8.stale_bytes, s8.total_bytes) : Except Unit (Nat × Nat)) =
      .ok (112, 108) ∧ ¬(112 ≤ 108) := by
  exact ⟨by rfl, by decide⟩

theorem encode_entry_length (c : Codec) (compression : Bool) (e : WalEntry) :
    (encode_entry c compression e).length =
      HEADER_SIZE + e.key_bytes.length + (storedValue c compression e).length := by
  simp [encode_entry, toLE_length, HEADER_SIZE]
  omega

theorem encodeAll_append (c : Codec) (compression : Bool) (a b : List WalEntry) :
    encodeAll c compression (a ++ b) =
      encodeAll c compression a ++ encodeAll c compression b := by
  induction a with
  | nil => rfl
  | cons e es ih => simp [encodeAll, ih]

theorem encodeAll_length_ge (c : Codec) (compression : Bool) (es : List WalEntry) :
    es.length ≤ (encodeAll c compression es).length := by
  induction es with
  | nil => simp [encodeAll]
  | cons e es ih =>
    simp only [encodeAll, List.length_append, List.length_cons]
    have h1 : 1 ≤ (encode_entry c compression e).length := by
      rw [encode_entry_length]
      unfold HEADER_SIZE
      omega
    omega

theorem alookup_ainsert {β : Type} (l : List (List Nat × β)) (k : List Nat) (v : β)
    (k1 : List Nat) :
    alookup (ainsert l k v) k1 = if k = k1 then some v else alookup l k1 := by
  induction l with
  | nil =>
    by_cases h : k = k1 <;> simp [ainsert, alookup, h]
  | cons hd t ih =>
    obtain ⟨k2, v2⟩ := hd
    by_cases h2 : k2 = k
    · subst h2
      by_cases h1 : k2 = k1 <;> simp [ainsert, alookup, h1, ih]
    · by_cases h1 : k2 = k1
      · subst h1
        have hk : k ≠ k2 := fun he => h2 he.symm
        simp [ainsert, alookup, h2, hk]
      · simp [ainsert, alookup, h2, h1, ih]

/-- `storedValue` with compression off is the raw value. -/
theorem storedValue_false (c : Codec) (e : WalEntry) :
    storedValue c false e = e.value_bytes := by
  simp [storedValue]

theorem GoodEntry.klen {c : Codec} {compression : Bool} {e : WalEntry}
    (h : GoodEntry c compression e) : e.key_bytes.length < 4294967296 := by
  obtain ⟨-, -, h3, -⟩ := h
  simp [HEADER_SIZE] at h3
  omega

theorem GoodEntry.vlen {c : Codec} {compression : Bool} {e : WalEntry}
    (h : GoodEntry c compression e) :
    (storedValue c compression e).length < 4294967296 := by
  obtain ⟨-, -, h3, -⟩ := h
  simp [HEADER_SIZE] at h3
  omega

/-- On a well-formed entry the decoded record length is not truncated. -/
theorem truncRecordOf_record_len {c : Codec} {compression : Bool} {e : WalEntry}
    (h : GoodEntry c compression e) :
    (truncRecordOf c compression e).record_len =
      (encode_entry c compression e).length := by
  obtain ⟨-, -, h3, -⟩ := h
  simp [truncRecordOf, encode_entry_length, Nat.mod_eq_of_lt h3]

theorem applyEntries_append (c : Codec) (compression : Bool) (a b : List WalEntry)
    (off : Nat) (idx : IndexMap) (st : Nat) :
    applyEntries c compression (a ++ b) off idx st =
      applyEntries c compression b
        (applyEntries c compression a off idx st).2.2
        (applyEntries c compression a off idx st).1
        (applyEntries c compression a off idx st).2.1 := by
  induction a generalizing off idx st with
  | nil => rfl
  | cons e es ih => simp [applyEntries, ih]

theorem applyEntries_offset (c : Codec) (compression : Bool) (es : List WalEntry)
    (hg : ∀ e ∈ es, GoodEntry c compression e) (off : Nat) (idx : IndexMap) (st : Nat) :
    (applyEntries c compression es off idx st).2.2 =
      off + (encodeAll c compression es).length := by
  induction es generalizing off idx st with
  | nil => simp [applyEntries, encodeAll]
  | cons e es ih =>
    have hge : GoodEntry c compression e := hg e (List.mem_cons_self e es)
    have hges : ∀ x ∈ es, GoodEntry c compression x :=
      fun x hx => hg x (List.mem_cons_of_mem e hx)
    simp only [applyEntries, encodeAll, List.length_append]
    rw [ih hges, truncRecordOf_record_len hge]
    omega

/-- Replaying the concatenation of well-formed encodings applies each decoded
record in turn (the fuelled loop never exhausts its fuel: one record consumes
at least one unit). -/
theorem loadGo_encodeAll (c : Codec) (compression : Bool) (es : List WalEntry)
    (hg : ∀ e ∈ es, GoodEntry c compression e) (fuel : Nat)
    (hfuel : es.length ≤ fuel) (off : Nat) (idx : IndexMap) (st : Nat) :
    loadGo c compression fuel (encodeAll c compression es) off idx st =
      .ok (applyEntries c compression es off idx st) := by
  induction es generalizing fuel off idx st with
  | nil =>
    simp [encodeAll, loadGo, read_record_internal, applyEntries]
  | cons e es ih =>
    have hge : GoodEntry c compression e := hg e (List.mem_cons_self e es)
    have hges : ∀ x ∈ es, GoodEntry c compression x :=
      fun x hx => hg x (List.mem_cons_of_mem e hx)
    obtain ⟨h1, h2, h3, h4⟩ := hge
    cases fuel with
    | zero => simp at hfuel
    | succ f =>
      have hread := read_record_internal_encode c compression e
        (encodeAll c compression es) h1 h2 (GoodEntry.klen ⟨h1, h2, h3, h4⟩)
        (GoodEntry.vlen ⟨h1, h2, h3, h4⟩) h4
      simp only [encodeAll]
      rw [loadGo, hread]
      simp only [applyEntries]
      exact ih hges f (by simpa using hfuel) _ _ _

/-- Replaying a canonical log reconstructs exactly the fold of its entries. -/
theorem load_index_encodeAll (c : Codec) (compression : Bool) (es : List WalEntry)
    (hg : ∀ e ∈ es, GoodEntry c compression e) :
    load_index c compression (encodeAll c compression es) =
      .ok ((applyEntries c compression es 0 [] 0).1,
           (applyEntries c compression es 0 [] 0).2.1) := by
  unfold load_index
  rw [loadGo_encodeAll c compression es hg _ (encodeAll_length_ge c compression es) 0 [] 0]
  rfl

theorem drop_append_left (wal extra : List Nat) (off : Nat) (h : off ≤ wal.length) :
    (wal ++ extra).drop off = wal.drop off ++ extra := by
  rcases Nat.exists_eq_add_of_le h with ⟨m, hm⟩
  rw [List.drop_append_eq_append_drop]
  congr 1
  rw [show off - wal.length = 0 by omega]
  rfl

/-- An encoding located inside the log stays located there when the log grows
at the end. -/
theorem ptr_entry_extend (wal extra enc : List Nat) (off : Nat)
    (hle : off + enc.length ≤ wal.length)
    (h : wal.drop off = enc ++ wal.drop (off + enc.length)) :
    (wal ++ extra).drop off = enc ++ (wal ++ extra).drop (off + enc.length) := by
  rw [drop_append_left wal extra off (by omega),
      drop_append_left wal extra (off + enc.length) hle, h, List.append_assoc]

theorem mem_ainsert {β : Type} (l : List (List Nat × β)) (k : List Nat) (v : β)
    (p : List Nat × β) (h : p ∈ ainsert l k v) : p = (k, v) ∨ p ∈ l := by
  induction l with
  | nil => simpa [ainsert] using h
  | cons hd t ih =>
    obtain ⟨k2, v2⟩ := hd
    by_cases h2 : k2 = k
    · rw [ainsert, if_pos h2] at h
      rcases List.mem_cons.1 h with h | h
      · exact Or.inl h
      · exact Or.inr (List.mem_cons_of_mem _ h)
    · rw [ainsert, if_neg h2] at h
      rcases List.mem_cons.1 h with h | h
      · exact Or.inr (h ▸ List.mem_cons_self _ _)
      · rcases ih h with h | h
        · exact Or.inl h
        · exact Or.inr (List.mem_cons_of_mem _ h)

theorem mem_aerase {β : Type} (l : List (List Nat × β)) (k : List Nat)
    (p : List Nat × β) (h : p ∈ aerase l k) : p ∈ l := by
  induction l with
  | nil => simpa [aerase] using h
  | cons hd t ih =>
    obtain ⟨k2, v2⟩ := hd
    by_cases h2 : k2 = k
    · rw [aerase, if_pos h2] at h
      exact List.mem_cons_of_mem _ (ih h)
    · rw [aerase, if_neg h2] at h
      rcases List.mem_cons.1 h with h | h
      · exact h ▸ List.mem_cons_self _ _
      · exact List.mem_cons_of_mem _ (ih h)

theorem alookup_mem {β : Type} (l : List (List Nat × β)) (k : List Nat) (v : β)
    (h : alookup l k = some v) : (k, v) ∈ l := by
  induction l with
  | nil => cases h
  | cons hd t ih =>
    obtain ⟨k2, v2⟩ := hd
    by_cases h2 : k2 = k
    · rw [alookup, if_pos h2] at h
      injection h with h
      subst h2; subst h
      exact List.mem_cons_self _ _
    · rw [alookup, if_neg h2] at h
      exact List.mem_cons_of_mem _ (ih h)

theorem applyRecord_fst_put (idx : IndexMap) (st : Nat) (k v : List Nat)
    (exp : Option Time) (off rl vl : Nat) :
    (applyRecord idx st ⟨.put k v exp, 0, rl, vl⟩ off).1 =
      ainsert idx k ⟨⟨off, vl, rl⟩, exp⟩ := by
  dsimp only [applyRecord]
  cases h : alookup idx k <;> simp [h]

theorem applyRecord_fst_delete (idx : IndexMap) (st : Nat) (k : List Nat)
    (off rl vl : Nat) :
    (applyRecord idx st ⟨.delete k, 0, rl, vl⟩ off).1 =
      (match alookup idx k with
       | some _ => aerase idx k
       | none => idx) := by
  dsimp only [applyRecord]
  cases h : alookup idx k <;> simp [h]

/-- The invariant survives a Put append: new entry resolving at the old end of
the log, old entries unchanged, replay extended by the one decoded record. -/
theorem ReplayInv_put_parts (c : Codec) (s s1 : EngineState)
    (key value : List Nat) (exp : Option Time)
    (hInv : ReplayInv c s) (hg : GoodEntry c false (.put key value exp))
    (hidx : s1.index = ainsert s.index key
      ⟨⟨s.wal.length, value.length % 4294967296,
        (encode_entry c false (.put key value exp)).length % 4294967296⟩, exp⟩)
    (hwal1 : s1.wal = s.wal ++ encode_entry c false (.put key value exp)) :
    ReplayInv c s1 := by
  obtain ⟨hptr, es, hges, hwal, hrel⟩ := hInv
  have hvl : value.length < 4294967296 := by
    have := GoodEntry.vlen hg
    rwa [storedValue_false, WalEntry.value_bytes] at this
  have hel : (encode_entry c false (.put key value exp)).length < 4294967296 := by
    rw [encode_entry_length]
    exact hg.2.2.1
  constructor
  · intro p hp
    rw [hidx] at hp
    rcases mem_ainsert _ _ _ _ hp with hpe | hpold
    · subst hpe
      refine ⟨value, hg, ?_, ?_⟩
      · simp [hwal1]
      · rw [hwal1]
        dsimp only
        rw [List.drop_left]
        rw [List.drop_eq_nil_of_le (by simp), List.append_nil]
    · obtain ⟨v, hgv, hle, hdrop⟩ := hptr p hpold
      refine ⟨v, hgv, ?_, ?_⟩
      · rw [hwal1]; simp only [List.length_append]; omega
      · rw [hwal1]
        exact ptr_entry_extend s.wal _ _ _ hle hdrop
  · refine ⟨es ++ [.put key value exp], ?_, ?_, ?_⟩
    · intro e he
      rcases List.mem_append.1 he with he | he
      · exact hges e he
      · rcases List.mem_singleton.1 he with rfl
        exact hg
    · rw [hwal1, encodeAll_append, hwal]
      simp [encodeAll]
    · intro k
      rw [applyEntries_append]
      have hoff : (applyEntries c false es 0 [] 0).2.2 = s.wal.length := by
        rw [applyEntries_offset c false es hges, hwal, Nat.zero_add]
      simp only [applyEntries, truncRecordOf, truncEntry]
      rw [applyRecord_fst_put, hoff, alookup_ainsert, hidx, alookup_ainsert]
      by_cases hkk : key = k
      · rw [if_pos hkk, if_pos hkk]
        simp only [truncIE, Option.map_some', encode_entry_length,
          storedValue_false, WalEntry.value_bytes, WalEntry.key_bytes,
          Nat.mod_eq_of_lt hvl]
      · rw [if_neg hkk, if_neg hkk]
        exact hrel k

theorem GoodEntry_truncPut (c : Codec) (compression : Bool) (k v : List Nat)
    (exp : Option Time) (hg : GoodEntry c compression (.put k v exp)) :
    GoodEntry c compression (.put k v (exp.map truncSec)) := by
  obtain ⟨h1, h2, h3, h4⟩ := hg
  refine ⟨h1, h2, h3, ?_⟩
  intro t ht
  simp only [WalEntry.expiry, Option.mem_def, Option.map_eq_some'] at ht
  obtain ⟨t0, ht0, rfl⟩ := ht
  have hb := h4 t0 (by simp [WalEntry.expiry, ht0])
  have : truncSec t0 / nsPerSec = t0 / nsPerSec := by
    rw [truncSec, Nat.mul_div_cancel _ (by simp [nsPerSec] : 0 < nsPerSec)]
  rw [this]
  exact hb

/-- Reading the record at an offset where an encoding is stored yields the
decoded (second-truncated) record. -/
theorem read_record_at_of_drop (c : Codec) (compression : Bool) (wal : List Nat)
    (k v : List Nat) (exp : Option Time) (off : Nat)
    (hg : GoodEntry c compression (.put k v exp))
    (hdrop : wal.drop off = encode_entry c compression (.put k v exp)
      ++ wal.drop (off + (encode_entry c compression (.put k v exp)).length)) :
    read_record_at c compression wal off =
      .ok ⟨.put k v (exp.map truncSec), off,
        (HEADER_SIZE + k.length
          + (storedValue c compression (.put k v exp)).length) % 4294967296,
        (storedValue c compression (.put k v exp)).length⟩ := by
  unfold read_record_at
  rw [hdrop,
    read_record_internal_encode c compression _ _ hg.1 hg.2.1 (GoodEntry.klen hg)
      (GoodEntry.vlen hg) hg.2.2.2]
  simp [truncRecordOf, truncEntry, WalEntry.key_bytes]

/-- The first `run_compaction` loop succeeds on a resolving index and every
collected triple is a well-formed Put. -/
theorem collectLive_spec (c : Codec) (compression : Bool) (wal : List Nat) (now : Time) (idx : IndexMap)
    (hptr : ∀ p ∈ idx, PtrResAt c compression wal p) :
    ∃ entries expired, collectLive c compression wal now idx = .ok (entries, expired) ∧
      ∀ x ∈ entries, GoodEntry c compression (toPutEntry x) := by
  induction idx with
  | nil => exact ⟨[], [], rfl, by simp⟩
  | cons p t ih =>
    obtain ⟨entries, expired, hcl, hge⟩ :=
      ih (fun q hq => hptr q (List.mem_cons_of_mem _ hq))
    obtain ⟨k, ie⟩ := p
    by_cases hexp : is_expired_at ie.expires_at now = true
    · refine ⟨entries, k :: expired, ?_, hge⟩
      rw [collectLive, if_pos hexp, hcl]
      rfl
    · obtain ⟨v, hgv, hle, hdrop⟩ := hptr (k, ie) (List.mem_cons_self _ _)
      have hread := read_record_at_of_drop c compression wal k v ie.expires_at
        ie.pointer.offset hgv hdrop
      refine ⟨(k, v, ie.expires_at.map truncSec) :: entries, expired, ?_, ?_⟩
      · rw [collectLive, if_neg hexp, hread, hcl]
        rfl
      · intro x hx
        rcases List.mem_cons.1 hx with rfl | hx
        · exact GoodEntry_truncPut c compression k v ie.expires_at hgv
        · exact hge x hx

theorem truncIE_newPointer (c : Codec) (key value : List Nat) (exp : Option Time)
    (off : Nat) (hg : GoodEntry c false (.put key value exp)) :
    (⟨⟨off, (storedValue c false (.put key value exp)).length,
       (HEADER_SIZE + key.length
         + (storedValue c false (.put key value exp)).length) % 4294967296⟩,
      exp.map truncSec⟩ : IndexEntry) =
    truncIE ⟨⟨off, value.length % 4294967296,
      (encode_entry c false (.put key value exp)).length % 4294967296⟩, exp⟩ := by
  have hvl : value.length < 4294967296 := by
    have := GoodEntry.vlen hg
    rwa [storedValue_false, WalEntry.value_bytes] at this
  simp [truncIE, storedValue_false, WalEntry.value_bytes, WalEntry.key_bytes,
    encode_entry_length, Nat.mod_eq_of_lt hvl]

theorem rwFold_wal (c : Codec) (compression : Bool) (l : List LiveEntry) :
    ∀ w0 i0, (l.foldl (rwStep c compression) (w0, i0)).1 =
      w0 ++ encodeAll c compression (l.map toPutEntry) := by
  induction l with
  | nil => intro w0 i0; simp [encodeAll]
  | cons x t ih =>
    intro w0 i0
    simp only [List.foldl_cons, List.map_cons, encodeAll]
    rw [ih]
    simp [rwStep, List.append_assoc]

theorem rwFold_rel (c : Codec) (l : List LiveEntry)
    (hg : ∀ x ∈ l, GoodEntry c false (toPutEntry x)) :
    ∀ w0 i0 m0 st0, (∀ k, alookup m0 k = (alookup i0 k).map truncIE) →
    ∀ k, alookup (applyEntries c false (l.map toPutEntry) w0.length m0 st0).1 k =
      (alookup (l.foldl (rwStep c false) (w0, i0)).2 k).map truncIE := by
  induction l with
  | nil =>
    intro w0 i0 m0 st0 hbase k
    simpa [applyEntries] using hbase k
  | cons x t ih =>
    intro w0 i0 m0 st0 hbase k
    have hgx : GoodEntry c false (toPutEntry x) := hg x (List.mem_cons_self _ _)
    have hgt : ∀ y ∈ t, GoodEntry c false (toPutEntry y) :=
      fun y hy => hg y (List.mem_cons_of_mem _ hy)
    obtain ⟨xk, xv, xe⟩ := x
    simp only [List.map_cons, applyEntries, List.foldl_cons, toPutEntry,
      truncRecordOf, truncEntry, rwStep]
    rw [applyRecord_fst_put]
    have hrl := truncRecordOf_record_len hgx
    simp only [toPutEntry, truncRecordOf] at hrl
    have hlen : w0.length + ((HEADER_SIZE + (WalEntry.put xk xv xe).key_bytes.length
        + (storedValue c false (.put xk xv xe)).length) % 4294967296) =
        (w0 ++ encode_entry c false (WalEntry.put xk xv xe)).length := by
      simp only [List.length_append]
      omega
    rw [hlen]
    refine ih hgt (w0 ++ encode_entry c false (WalEntry.put xk xv xe))
      (ainsert i0 xk ⟨⟨w0.length, xv.length % 4294967296,
        (encode_entry c false (WalEntry.put xk xv xe)).length % 4294967296⟩, xe⟩)
      _ _ ?_ k
    intro k1
    rw [alookup_ainsert, alookup_ainsert]
    by_cases hkk : xk = k1
    · rw [if_pos hkk, if_pos hkk]
      rw [Option.map_some']
      congr 1
      exact truncIE_newPointer c xk xv xe w0.length hgx
    · rw [if_neg hkk, if_neg hkk]
      exact hbase k1

theorem rwFold_ptr (c : Codec) (l : List LiveEntry)
    (hg : ∀ x ∈ l, GoodEntry c false (toPutEntry x)) :
    ∀ w0 i0, (∀ p ∈ i0, PtrResAt c false w0 p) →
    ∀ p ∈ (l.foldl (rwStep c false) (w0, i0)).2,
      PtrResAt c false (l.foldl (rwStep c false) (w0, i0)).1 p := by
  induction l with
  | nil =>
    intro w0 i0 hbase p hp
    simpa using hbase p hp
  | cons x t ih =>
    intro w0 i0 hbase
    have hgx : GoodEntry c false (toPutEntry x) := hg x (List.mem_cons_self _ _)
    have hgt : ∀ y ∈ t, GoodEntry c false (toPutEntry y) :=
      fun y hy => hg y (List.mem_cons_of_mem _ hy)
    obtain ⟨xk, xv, xe⟩ := x
    simp only [List.foldl_cons]
    refine ih hgt _ _ ?_
    intro p hp
    rcases mem_ainsert _ _ _ _ hp with rfl | hpold
    · refine ⟨xv, hgx, ?_, ?_⟩
      · simp [toPutEntry]
      · dsimp only [toPutEntry]
        rw [List.drop_left]
        rw [List.drop_eq_nil_of_le (by simp), List.append_nil]
    · obtain ⟨v, hgv, hle, hdrop⟩ := hbase p hpold
      refine ⟨v, hgv, ?_, ?_⟩
      · simp only [rwStep, List.length_append]
        omega
      · exact ptr_entry_extend w0 _ _ _ hle hdrop

theorem sortByKey_mem (l : List LiveEntry) (x : LiveEntry) :
    x ∈ sortByKey l ↔ x ∈ l :=
  (List.perm_insertionSort _ l).mem_iff

/-- Compaction re-establishes the invariant: the new log is the concatenation
of the surviving Put encodings and the rebuilt index is its replay. -/
theorem ReplayInv_compaction (c : Codec) (s : EngineState) (now : Time)
    (s1 : EngineState) (hInv : ReplayInv c s)
    (h : run_compaction c false s now = .ok s1) : ReplayInv c s1 := by
  obtain ⟨hptr, es, hges, hwal, hrel⟩ := hInv
  obtain ⟨entries, expired, hcl, hgood⟩ := collectLive_spec c false s.wal now s.index hptr
  unfold run_compaction at h
  rw [hcl] at h
  dsimp only at h
  injection h with hs1
  subst hs1
  have hgs : ∀ x ∈ sortByKey entries, GoodEntry c false (toPutEntry x) :=
    fun x hx => hgood x ((sortByKey_mem entries x).1 hx)
  constructor
  · intro p hp
    exact rwFold_ptr c (sortByKey entries) hgs [] []
      (by intro q hq; cases hq) p hp
  · refine ⟨(sortByKey entries).map toPutEntry, ?_, ?_, ?_⟩
    · intro e he
      obtain ⟨x, hx, rfl⟩ := List.mem_map.1 he
      exact hgs x hx
    · simp [walRewrite, rwFold_wal]
    · intro k
      have hbase : ∀ k1, alookup ([] : IndexMap) k1 =
          (alookup ([] : IndexMap) k1).map truncIE := fun _ => rfl
      have := rwFold_rel c (sortByKey entries) hgs [] [] [] 0 hbase k
      simpa [walRewrite] using this


theorem alookup_eq_none_not_mem {β : Type} (l : List (List Nat × β)) (k : List Nat)
    (h : alookup l k = none) : ∀ v, (k, v) ∉ l := by
  induction l with
  | nil => intro v hv; cases hv
  | cons hd t ih =>
    obtain ⟨k2, v2⟩ := hd
    intro v hv
    by_cases h2 : k2 = k
    · rw [alookup, if_pos h2] at h; cases h
    · rw [alookup, if_neg h2] at h
      rcases List.mem_cons.1 hv with he | hm
      · cases he; exact h2 rfl
      · exact ih h v hm

theorem mem_nodup_alookup {β : Type} (l : List (List Nat × β)) (k : List Nat) (v : β)
    (hnd : (l.map Prod.fst).Nodup) (h : (k, v) ∈ l) : alookup l k = some v := by
  induction l with
  | nil => cases h
  | cons hd t ih =>
    obtain ⟨k2, v2⟩ := hd
    simp only [List.map_cons, List.nodup_cons] at hnd
    rcases List.mem_cons.1 h with he | hm
    · cases he
      rw [alookup, if_pos rfl]
    · by_cases h2 : k2 = k
      · subst h2
        exact absurd (List.mem_map.2 ⟨(k2, v), hm, rfl⟩) hnd.1
      · rw [alookup, if_neg h2]
        exact ih hnd.2 hm

theorem cacheGet_fst_remove_self (cm : CacheModel) (k : List Nat) :
    (cacheGet (cacheRemove cm k) k).1 = none := by
  by_cases hwb : cm.write_back = true <;>
    simp [cacheGet, cacheRemove, cacheGetLru, hwb, alookup_aerase_self]

theorem cacheGet_fst_remove_other (cm : CacheModel) (k k1 : List Nat) (hne : k ≠ k1) :
    (cacheGet (cacheRemove cm k1) k).1 = (cacheGet cm k).1 := by
  by_cases hwb : cm.write_back = true <;>
    simp only [cacheGet, cacheRemove, cacheGetLru, hwb, if_true, if_false,
      alookup_aerase_ne _ _ _ hne] <;>
    cases alookup cm.write_buffer k <;>
    cases alookup cm.lru k <;>
    simp

theorem foldRemove_none (exk : List (List Nat)) :
    exk.foldl (fun oc k1 => oc.map (fun cm => cacheRemove cm k1))
      (none : Option CacheModel) = none := by
  induction exk with
  | nil => rfl
  | cons k1 t ih => simpa using ih

theorem foldRemove_some (exk : List (List Nat)) : ∀ (cm : CacheModel),
    ∃ cm1, exk.foldl (fun oc k1 => oc.map (fun cm2 => cacheRemove cm2 k1))
        (some cm) = some cm1 ∧
      ∀ k, (cacheGet cm1 k).1 = (if k ∈ exk then none else (cacheGet cm k).1) := by
  induction exk with
  | nil => intro cm; exact ⟨cm, rfl, by simp⟩
  | cons k1 t ih =>
    intro cm
    obtain ⟨cm1, hfold, hget⟩ := ih (cacheRemove cm k1)
    refine ⟨cm1, by simpa using hfold, ?_⟩
    intro k
    rw [hget k]
    by_cases hk1 : k ∈ t
    · simp [hk1]
    · by_cases hke : k = k1
      · subst hke
        simp [hk1, cacheGet_fst_remove_self]
      · simp [hk1, hke, cacheGet_fst_remove_other cm k k1 hke]

theorem truncSec_idem (t : Time) : truncSec (truncSec t) = truncSec t := by
  rw [truncSec, truncSec, Nat.mul_div_cancel _ (by simp [nsPerSec] : 0 < nsPerSec)]

theorem map_truncSec_whole (exp : Option Time) (h : ∀ t ∈ exp, t % nsPerSec = 0) :
    exp.map truncSec = exp := by
  cases exp with
  | none => rfl
  | some t =>
    have ht := h t rfl
    simp only [Option.map_some', Option.some.injEq, truncSec]
    exact Nat.div_mul_cancel (Nat.dvd_of_mod_eq_zero ht)

theorem except_map_ok {α β : Type} (f : α → β) (x : Except Unit α) (y : β)
    (h : x.map f = .ok y) : ∃ z, x = .ok z ∧ f z = y := by
  cases x with
  | error e => cases h
  | ok z =>
    refine ⟨z, rfl, ?_⟩
    injection h

theorem rwFold_lookup_skip (c : Codec) (compression : Bool) (l : List LiveEntry) :
    ∀ (w0 : List Nat) (i0 : IndexMap) (k : List Nat), (∀ x ∈ l, x.1 ≠ k) →
    alookup (l.foldl (rwStep c compression) (w0, i0)).2 k = alookup i0 k := by
  induction l with
  | nil => intro w0 i0 k _; rfl
  | cons x t ih =>
    intro w0 i0 k h
    simp only [List.foldl_cons]
    have := ih (rwStep c compression (w0, i0) x).1 (rwStep c compression (w0, i0) x).2 k
      (fun y hy => h y (List.mem_cons_of_mem _ hy))
    rw [this]
    simp [rwStep, alookup_ainsert, h x (List.mem_cons_self _ _)]

theorem rwFold_lookup_val (c : Codec) (compression : Bool) (l : List LiveEntry)
    (hnd : (l.map (fun x => x.1)).Nodup)
    (hg : ∀ x ∈ l, GoodEntry c compression (toPutEntry x)) :
    ∀ (w0 : List Nat) (i0 : IndexMap), ∀ x ∈ l,
    ∃ off, alookup (l.foldl (rwStep c compression) (w0, i0)).2 x.1 =
        some ⟨⟨off, x.2.1.length % 4294967296,
          (encode_entry c compression (toPutEntry x)).length % 4294967296⟩, x.2.2⟩ ∧
      off + (encode_entry c compression (toPutEntry x)).length ≤
        (l.foldl (rwStep c compression) (w0, i0)).1.length ∧
      (l.foldl (rwStep c compression) (w0, i0)).1.drop off =
        encode_entry c compression (toPutEntry x)
          ++ (l.foldl (rwStep c compression) (w0, i0)).1.drop
              (off + (encode_entry c compression (toPutEntry x)).length) := by
  induction l with
  | nil => intro w0 i0 x hx; cases hx
  | cons y t ih =>
    intro w0 i0 x hx
    simp only [List.map_cons, List.nodup_cons] at hnd
    have hgt : ∀ z ∈ t, GoodEntry c compression (toPutEntry z) :=
      fun z hz => hg z (List.mem_cons_of_mem _ hz)
    rcases List.mem_cons.1 hx with rfl | hm
    · refine ⟨w0.length, ?_, ?_, ?_⟩
      · simp only [List.foldl_cons]
        rw [rwFold_lookup_skip c compression t _ _ _
          (fun z hz hzk => hnd.1 (List.mem_map.2 ⟨z, hz, hzk⟩))]
        simp [rwStep, alookup_ainsert, toPutEntry]
      · simp only [List.foldl_cons]
        rw [rwFold_wal]
        simp only [rwStep, List.length_append]
        omega
      · simp only [List.foldl_cons]
        rw [rwFold_wal]
        have hw : ((rwStep c compression (w0, i0) x).1
            ++ encodeAll c compression (t.map toPutEntry)) =
            w0 ++ (encode_entry c compression (toPutEntry x)
              ++ encodeAll c compression (t.map toPutEntry)) := by
          simp [rwStep, List.append_assoc]
        rw [hw, List.drop_left]
        have hlen : w0.length + (encode_entry c compression (toPutEntry x)).length =
            (w0 ++ encode_entry c compression (toPutEntry x)).length := by
          simp
        rw [hlen, ← List.append_assoc, List.drop_left]
    · exact ih hnd.2 hgt _ _ x hm

theorem sortByKey_keys_nodup (l : List LiveEntry)
    (hnd : (l.map (fun x => x.1)).Nodup) :
    ((sortByKey l).map (fun x => x.1)).Nodup := by
  have hperm : List.Perm (sortByKey l) l := List.perm_insertionSort _ l
  exact ((hperm.map (fun x => x.1)).nodup_iff).2 hnd

/-- Characterization of the `run_compaction` collection loop on a resolving
index: where each collected triple comes from, that every live pair is
collected with the value stored at its pointer, which keys are declared
expired, and that collected keys form a sublist of the index keys. -/
theorem collectLive_char (c : Codec) (compression : Bool) (wal : List Nat) (now : Time) :
    ∀ (idx : IndexMap), (∀ p ∈ idx, PtrResAt c compression wal p) →
    ∀ entries expired, collectLive c compression wal now idx = .ok (entries, expired) →
    (∀ x ∈ entries, ∃ ie, (x.1, ie) ∈ idx ∧ is_expired_at ie.expires_at now = false) ∧
    (∀ k ie, (k, ie) ∈ idx → is_expired_at ie.expires_at now = false →
      ∃ v, (k, v, ie.expires_at.map truncSec) ∈ entries ∧
        read_record_at c compression wal ie.pointer.offset =
          .ok ⟨.put k v (ie.expires_at.map truncSec), ie.pointer.offset,
            (HEADER_SIZE + k.length
              + (storedValue c compression (.put k v ie.expires_at)).length)
                % 4294967296,
            (storedValue c compression (.put k v ie.expires_at)).length⟩) ∧
    (∀ k, k ∈ expired ↔ ∃ ie, (k, ie) ∈ idx ∧ is_expired_at ie.expires_at now = true) ∧
    List.Sublist (entries.map (fun x => x.1)) (idx.map Prod.fst) := by
  intro idx
  induction idx with
  | nil =>
    intro _ entries expired hcl
    simp only [collectLive] at hcl
    injection hcl with h
    injection h with h1 h2
    subst h1; subst h2
    refine ⟨?_, ?_, ?_, ?_⟩
    · intro x hx; cases hx
    · intro k ie hm; cases hm
    · intro k
      constructor
      · intro hk; cases hk
      · rintro ⟨ie, hm, -⟩; cases hm
    · simp
  | cons p t ih =>
    intro hptr entries expired hcl
    obtain ⟨k0, ie0⟩ := p
    have hptrT : ∀ q ∈ t, PtrResAt c compression wal q :=
      fun q hq => hptr q (List.mem_cons_of_mem _ hq)
    by_cases hexp : is_expired_at ie0.expires_at now = true
    · rw [collectLive, if_pos hexp] at hcl
      obtain ⟨⟨e1, x1⟩, hcl1, heq⟩ := except_map_ok _ _ _ hcl
      dsimp only at heq
      injection heq with hq1 hq2
      subst hq1; subst hq2
      obtain ⟨h2, h3, h4, h5⟩ := ih hptrT e1 x1 hcl1
      refine ⟨?_, ?_, ?_, ?_⟩
      · intro x hx
        obtain ⟨ie, hm, hl⟩ := h2 x hx
        exact ⟨ie, List.mem_cons_of_mem _ hm, hl⟩
      · intro k ie hm hl
        rcases List.mem_cons.1 hm with he | hm2
        · injection he with he1 he2
          subst he1; subst he2
          exact absurd hexp (by simp [hl])
        · exact h3 k ie hm2 hl
      · intro k
        constructor
        · intro hk
          rcases List.mem_cons.1 hk with rfl | hk2
          · exact ⟨ie0, List.mem_cons_self _ _, hexp⟩
          · obtain ⟨ie, hm, hl⟩ := (h4 k).1 hk2
            exact ⟨ie, List.mem_cons_of_mem _ hm, hl⟩
        · rintro ⟨ie, hm, hl⟩
          rcases List.mem_cons.1 hm with he | hm2
          · injection he with he1 he2
            subst he1
            exact List.mem_cons_self _ _
          · exact List.mem_cons_of_mem _ ((h4 k).2 ⟨ie, hm2, hl⟩)
      · simp only [List.map_cons]
        exact h5.cons _
    · obtain ⟨v, hgv, hle, hdrop⟩ := hptr (k0, ie0) (List.mem_cons_self _ _)
      have hread := read_record_at_of_drop c compression wal k0 v ie0.expires_at
        ie0.pointer.offset hgv hdrop
      rw [collectLive, if_neg hexp, hread] at hcl
      dsimp only at hcl
      obtain ⟨⟨e1, x1⟩, hcl1, heq⟩ := except_map_ok _ _ _ hcl
      dsimp only at heq
      injection heq with hq1 hq2
      subst hq1; subst hq2
      obtain ⟨h2, h3, h4, h5⟩ := ih hptrT e1 x1 hcl1
      have hexpf : is_expired_at ie0.expires_at now = false := by
        revert hexp; cases is_expired_at ie0.expires_at now <;> simp
      refine ⟨?_, ?_, ?_, ?_⟩
      · intro x hx
        rcases List.mem_cons.1 hx with rfl | hx2
        · exact ⟨ie0, List.mem_cons_self _ _, hexpf⟩
        · obtain ⟨ie, hm, hl⟩ := h2 x hx2
          exact ⟨ie, List.mem_cons_of_mem _ hm, hl⟩
      · intro k ie hm hl
        rcases List.mem_cons.1 hm with he | hm2
        · injection he with he1 he2
          subst he1; subst he2
          exact ⟨v, List.mem_cons_self _ _, hread⟩
        · obtain ⟨v2, hmm, hr⟩ := h3 k ie hm2 hl
          exact ⟨v2, List.mem_cons_of_mem _ hmm, hr⟩
      · intro k
        constructor
        · intro hk
          obtain ⟨ie, hm, hl⟩ := (h4 k).1 hk
          exact ⟨ie, List.mem_cons_of_mem _ hm, hl⟩
        · rintro ⟨ie, hm, hl⟩
          rcases List.mem_cons.1 hm with he | hm2
          · injection he with he1 he2
            subst he1; subst he2
            exact absurd hl hexp
          · exact (h4 k).2 ⟨ie, hm2, hl⟩
      · simp only [List.map_cons]
        exact h5.cons₂ _

theorem cacheGet_snd_of_miss (cm : CacheModel) (k : List Nat)
    (h : (cacheGet cm k).1 = none) : (cacheGet cm k).2 = cm := by
  by_cases hwb : cm.write_back = true
  · cases hb : alookup cm.write_buffer k with
    | some e => rw [cacheGet_buffer_hit cm k e hwb hb] at h; cases h
    | none =>
      rw [cacheGet_no_buffer cm k (Or.inr hb)] at h ⊢
      cases hl : alookup cm.lru k with
      | some e => rw [cacheGetLru_hit cm k e hl] at h; cases h
      | none => rw [cacheGetLru_miss cm k hl]
  · have hwbf : cm.write_back = false := by
      revert hwb; cases cm.write_back <;> simp
    rw [cacheGet_no_buffer cm k (Or.inl hwbf)] at h ⊢
    cases hl : alookup cm.lru k with
    | some e => rw [cacheGetLru_hit cm k e hl] at h; cases h
    | none => rw [cacheGetLru_miss cm k hl]

theorem map_map_truncSec (e : Option Time) :
    (e.map truncSec).map truncSec = e.map truncSec := by
  cases e <;> simp [truncSec_idem]

theorem getReadPath_spec (c : Codec) (cfg : EngineConfig) (s : EngineState)
    (k : List Nat) (ie : IndexEntry) (rec : WalRecord) (krec v : List Nat)
    (erec : Option Time)
    (hread : read_record_at c cfg.compression s.wal ie.pointer.offset = .ok rec)
    (hrec : rec.entry = .put krec v erec) :
    getReadPath c cfg s k ie =
      .ok (some v,
        { s with cache := Option.map (fun cm => cachePut cm k ⟨v, ie.expires_at⟩) s.cache }) := by
  unfold getReadPath
  rw [hread]
  obtain ⟨entry, off, rl, vl⟩ := rec
  dsimp only at hrec
  subst hrec
  rfl

theorem getIndexPath_none (c : Codec) (cfg : EngineConfig) (s : EngineState)
    (k : List Nat) (now : Time) (h : alookup s.index k = none) :
    getIndexPath c cfg s k now = .ok (none, s) := by
  unfold getIndexPath
  rw [h]

theorem getIndexPath_expired (c : Codec) (cfg : EngineConfig) (s : EngineState)
    (k : List Nat) (now : Time) (ie : IndexEntry)
    (h : alookup s.index k = some ie) (he : is_expired_at ie.expires_at now = true) :
    (getIndexPath c cfg s k now).map Prod.fst = .ok none := by
  unfold getIndexPath
  rw [h]
  dsimp only
  rw [if_pos he]
  unfold expire_key
  cases hh : alookup s.index k with
  | none => rfl
  | some e => rfl

theorem getIndexPath_live (c : Codec) (cfg : EngineConfig) (s : EngineState)
    (k : List Nat) (now : Time) (ie : IndexEntry) (rec : WalRecord)
    (krec v : List Nat) (erec : Option Time)
    (h : alookup s.index k = some ie) (he : is_expired_at ie.expires_at now = false)
    (hread : read_record_at c cfg.compression s.wal ie.pointer.offset = .ok rec)
    (hrec : rec.entry = .put krec v erec) :
    (getIndexPath c cfg s k now).map Prod.fst =
      .ok (some (liveGetValue v s.cache k now)) := by
  unfold getIndexPath
  rw [h]
  dsimp only
  rw [if_neg (by simp [he])]
  cases hc : s.cache with
  | none =>
    rw [getReadPath_spec c cfg s k ie rec krec v erec hread hrec]
    simp [liveGetValue, hc, Except.map]
  | some cm =>
    cases hhit : (cacheGet cm k).1 with
    | some ce =>
      by_cases hce : is_expired_at ce.expires_at now = false
      · simp only [hhit, hce, Bool.not_false, if_true]
        simp [liveGetValue, hhit, hce, Except.map]
      · have hcet : is_expired_at ce.expires_at now = true := by
          revert hce; cases is_expired_at ce.expires_at now <;> simp
        simp only [hhit, hcet, Bool.not_true, Bool.false_eq_true, if_false]
        rw [getReadPath_spec c cfg { s with cache := some (cacheGet cm k).2 } k ie rec
          krec v erec hread hrec]
        simp [liveGetValue, hhit, hcet, Except.map]
    | none =>
      simp only [hhit]
      rw [getReadPath_spec c cfg { s with cache := some (cacheGet cm k).2 } k ie rec
        krec v erec hread hrec]
      simp [liveGetValue, hhit, Except.map]

/-- The invariant survives a Delete append. -/
theorem ReplayInv_delete_parts (c : Codec) (s s1 : EngineState) (key : List Nat)
    (hInv : ReplayInv c s) (hg : GoodEntry c false (.delete key))
    (hidx : s1.index = (match alookup s.index key with
      | some _ => aerase s.index key
      | none => s.index))
    (hwal1 : s1.wal = s.wal ++ encode_entry c false (.delete key)) :
    ReplayInv c s1 := by
  obtain ⟨hptr, es, hges, hwal, hrel⟩ := hInv
  constructor
  · intro p hp
    rw [hidx] at hp
    have hpold : p ∈ s.index := by
      cases hprev : alookup s.index key with
      | some q => rw [hprev] at hp; exact mem_aerase _ _ _ hp
      | none => rw [hprev] at hp; exact hp
    obtain ⟨v, hgv, hle, hdrop⟩ := hptr p hpold
    refine ⟨v, hgv, ?_, ?_⟩
    · rw [hwal1]; simp only [List.length_append]; omega
    · rw [hwal1]
      exact ptr_entry_extend s.wal _ _ _ hle hdrop
  · refine ⟨es ++ [.delete key], ?_, ?_, ?_⟩
    · intro e he
      rcases List.mem_append.1 he with he | he
      · exact hges e he
      · rcases List.mem_singleton.1 he with rfl
        exact hg
    · rw [hwal1, encodeAll_append, hwal]
      simp [encodeAll]
    · intro k
      rw [applyEntries_append]
      simp only [applyEntries, truncRecordOf, truncEntry]
      rw [applyRecord_fst_delete, hidx]
      have hrk := hrel key
      cases hprev : alookup s.index key with
      | some p =>
        rw [hprev] at hrk
        simp only [Option.map_some'] at hrk
        rw [hrk]
        by_cases hkk : k = key
        · subst hkk
          rw [alookup_aerase_self, alookup_aerase_self]
          rfl
        · rw [alookup_aerase_ne _ _ _ hkk, alookup_aerase_ne _ _ _ hkk]
          exact hrel k
      | none =>
        rw [hprev] at hrk
        simp only [Option.map_none'] at hrk
        rw [hrk]
        exact hrel k

theorem ReplayInv_corePut (c : Codec) (s : EngineState) (key value : List Nat)
    (exp : Option Time) (hInv : ReplayInv c s)
    (hg : GoodEntry c false (.put key value exp)) :
    ReplayInv c (corePut c false s key value exp) :=
  ReplayInv_put_parts c s _ key value exp hInv hg rfl rfl

theorem ReplayInv_maybe_compact (c : Codec) (cfg : EngineConfig)
    (sc : Nat → Nat → Bool) (s : EngineState) (now : Time) (s1 : EngineState)
    (hcomp : cfg.compression = false) (hInv : ReplayInv c s)
    (h : maybe_compact_async c cfg sc s now = .ok s1) : ReplayInv c s1 := by
  unfold maybe_compact_async at h
  by_cases hsc : sc s.total_bytes s.stale_bytes = true
  · rw [hsc, if_pos rfl] at h
    by_cases ha : cfg.async_compaction = true
    · rw [ha, if_pos rfl] at h
      injection h with h
      subst h
      exact hInv
    · rw [if_neg ha, hcomp] at h
      exact ReplayInv_compaction c s now s1 hInv h
  · rw [if_neg hsc] at h
    injection h with h
    subst h
    exact hInv

theorem ReplayInv_put_with_ttl (c : Codec) (cfg : EngineConfig)
    (sc : Nat → Nat → Bool) (s : EngineState) (key value : List Nat)
    (ttl : Option Nat) (now : Time) (s1 : EngineState)
    (hwb : cfg.write_back_cache = false) (hcomp : cfg.compression = false)
    (hInv : ReplayInv c s)
    (hg : GoodEntry c false (.put key value (ttl.map (fun d => now + d))))
    (h : put_with_ttl c cfg sc s key value ttl now = .ok s1) : ReplayInv c s1 := by
  unfold put_with_ttl at h
  rw [hwb] at h
  dsimp only at h
  rw [hcomp] at h
  exact ReplayInv_maybe_compact c cfg sc _ now s1 hcomp
    (ReplayInv_corePut c s key value (ttl.map (fun d => now + d)) hInv hg) h

theorem ReplayInv_engine_delete (c : Codec) (cfg : EngineConfig)
    (sc : Nat → Nat → Bool) (s : EngineState) (key : List Nat) (now : Time)
    (s1 : EngineState) (hcomp : cfg.compression = false) (hInv : ReplayInv c s)
    (hg : GoodEntry c false (.delete key))
    (h : engine_delete c cfg sc s key now = .ok s1) : ReplayInv c s1 := by
  unfold engine_delete at h
  rw [hcomp] at h
  refine ReplayInv_maybe_compact c cfg sc _ now s1 hcomp ?_ h
  exact ReplayInv_delete_parts c s _ key hInv hg rfl rfl

theorem ReplayInv_seqPuts (c : Codec) (now : Time) :
    ∀ (entries : List (List Nat × List Nat × Option Nat)) (s : EngineState),
    ReplayInv c s →
    (∀ kvt ∈ entries,
      GoodEntry c false (.put kvt.1 kvt.2.1 (kvt.2.2.map (fun d => now + d)))) →
    ReplayInv c (seqPuts c false now s entries) := by
  intro entries
  induction entries with
  | nil => intro s h _; exact h
  | cons kvt t ih =>
    intro s h hg
    exact ih _ (ReplayInv_corePut c s _ _ _ h (hg kvt (List.mem_cons_self _ _)))
      (fun y hy => hg y (List.mem_cons_of_mem _ hy))

theorem batch_fold_eq_seq (c : Codec) (comp : Bool) (now : Time) :
    ∀ (entries : List (List Nat × List Nat × Option Nat)) (s : EngineState),
    ((entries.zip (walAppendBatch c comp s.wal
        (entries.map (fun kvt => WalEntry.put kvt.1 kvt.2.1
          (kvt.2.2.map (fun d => now + d))))).2).foldl
      (putBatchStep now)
      { s with wal := (walAppendBatch c comp s.wal
        (entries.map (fun kvt => WalEntry.put kvt.1 kvt.2.1
          (kvt.2.2.map (fun d => now + d))))).1 })
    = seqPuts c comp now s entries := by
  intro entries
  induction entries with
  | nil => intro s; rfl
  | cons kvt t ih =>
    intro s
    simp only [List.map_cons, walAppendBatch, List.zip_cons_cons, List.foldl_cons,
      seqPuts]
    have hstep : putBatchStep now
        { s with wal := (walAppendBatch c comp
            (walAppend c comp s.wal
              (WalEntry.put kvt.1 kvt.2.1 (kvt.2.2.map (fun d => now + d)))).1
            (t.map (fun kvt => WalEntry.put kvt.1 kvt.2.1
              (kvt.2.2.map (fun d => now + d))))).1 }
        (kvt, (walAppend c comp s.wal
          (WalEntry.put kvt.1 kvt.2.1 (kvt.2.2.map (fun d => now + d)))).2) =
      { corePut c comp s kvt.1 kvt.2.1 (kvt.2.2.map (fun d => now + d)) with
        wal := (walAppendBatch c comp
          (corePut c comp s kvt.1 kvt.2.1 (kvt.2.2.map (fun d => now + d))).wal
          (t.map (fun kvt => WalEntry.put kvt.1 kvt.2.1
            (kvt.2.2.map (fun d => now + d))))).1 } := by
      rfl
    rw [hstep]
    exact ih (corePut c comp s kvt.1 kvt.2.1 (kvt.2.2.map (fun d => now + d)))

theorem ReplayInv_put_batch (c : Codec) (cfg : EngineConfig)
    (sc : Nat → Nat → Bool) (s : EngineState)
    (entries : List (List Nat × List Nat × Option Nat)) (now : Time)
    (s1 : EngineState) (hcomp : cfg.compression = false) (hInv : ReplayInv c s)
    (hg : ∀ kvt ∈ entries,
      GoodEntry c false (.put kvt.1 kvt.2.1 (kvt.2.2.map (fun d => now + d))))
    (h : put_batch c cfg sc s entries now = .ok s1) : ReplayInv c s1 := by
  unfold put_batch at h
  by_cases he : entries.isEmpty = true
  · rw [if_pos he] at h
    injection h with h
    subst h
    exact hInv
  · rw [if_neg he, hcomp] at h
    dsimp only at h
    rw [batch_fold_eq_seq c false now entries s] at h
    exact ReplayInv_maybe_compact c cfg sc _ now s1 hcomp
      (ReplayInv_seqPuts c now entries s hInv hg) h

theorem ReplayInv_init (c : Codec) (cfg : EngineConfig) (cap : Option Nat)
    (s : EngineState) (h : buildState c cfg [] cap = .ok s) : ReplayInv c s := by
  have hb : buildState c cfg [] cap =
      .ok ⟨[], [], cap.map (fun n => ⟨[], [], cfg.write_back_cache, n⟩), 0, 0⟩ := rfl
  rw [hb] at h
  injection h with h
  subst h
  refine ⟨?_, [], ?_, rfl, ?_⟩
  · intro p hp; cases hp
  · intro e he; cases he
  · intro k; rfl

/-- Every state reachable by the claim's operation set satisfies the replay
invariant. -/
theorem ReachOps_ReplayInv (c : Codec) (cfg : EngineConfig) (sc : Nat → Nat → Bool)
    (s : EngineState) (hwb : cfg.write_back_cache = false)
    (hcomp : cfg.compression = false) (h : ReachOps c cfg sc s) : ReplayInv c s := by
  induction h with
  | init cap s h => exact ReplayInv_init c cfg cap s h
  | put s s1 key value ttl now hs hg hop ih =>
    exact ReplayInv_put_with_ttl c cfg sc s key value ttl now s1 hwb hcomp ih hg hop
  | putDefault s s1 key value now hs hg hop ih =>
    exact ReplayInv_put_with_ttl c cfg sc s key value cfg.default_ttl now s1 hwb hcomp
      ih hg hop
  | putBatch s s1 entries now hs hg hop ih =>
    exact ReplayInv_put_batch c cfg sc s entries now s1 hcomp ih hg hop
  | del s s1 key now hs hg hop ih =>
    exact ReplayInv_engine_delete c cfg sc s key now s1 hcomp ih hg hop

/-- Claim C3 as stated fails: the log stores expiries in whole seconds, so the
replayed index differs from the in-memory one after a put with a sub-second
TTL component.  From a fresh engine, put_with_ttl("k", "v", ttl = 0.5 s) at
time 0 leaves an in-memory expiry of 0.5 s, while replay reconstructs 0 s:
the maps are not identical. -/
theorem C3_counterexample :
    (do
      let s0 ← buildState idCodec ⟨none, false, false, false⟩ [] none
      let s1 ← put_with_ttl idCodec ⟨none, false, false, false⟩ should_compact s0
        [107] [118] (some 500000000) 0
      let m ← load_index idCodec false s1.wal
      pure (alookup m.1 [107], alookup s1.index [107]) :
        Except Unit (Option IndexEntry × Option IndexEntry)) =
      .ok (some ⟨⟨0, 1, 20⟩, some 0⟩, some ⟨⟨0, 1, 20⟩, some 500000000⟩) ∧
    (some (⟨⟨0, 1, 20⟩, some 0⟩ : IndexEntry) ≠ some ⟨⟨0, 1, 20⟩, some 500000000⟩) := by
  exact ⟨by rfl, by decide⟩

/-- Claim C3, amended: for every sequence of successful put / put_with_ttl /
put_batch / delete operations from a fresh directory, outside write-back
buffering and with compression disabled, replaying wal.log from offset 0 via
load_index succeeds and reconstructs a map holding, for each key, exactly the
engine's in-memory (pointer, expires_at) with the expiry truncated to whole
seconds (pointers are reconstructed exactly; the codec stores whole seconds). -/
theorem C3_replay (c : Codec) (cfg : EngineConfig) (sc : Nat → Nat → Bool)
    (s : EngineState) (hwb : cfg.write_back_cache = false)
    (hcomp : cfg.compression = false) (h : ReachOps c cfg sc s) :
    ∃ m st, load_index c cfg.compression s.wal = .ok (m, st) ∧
      ∀ k, alookup m k = (alookup s.index k).map truncIE := by
  obtain ⟨hptr, es, hges, hwal, hrel⟩ := ReachOps_ReplayInv c cfg sc s hwb hcomp h
  refine ⟨(applyEntries c false es 0 [] 0).1,
    (applyEntries c false es 0 [] 0).2.1, ?_, hrel⟩
  rw [hcomp, hwal]
  exact load_index_encodeAll c false es hges

theorem C3_replay_witness :
    ∃ m st, load_index idCodec false
        (encode_entry idCodec false (.put [107] [118] (some 2000000000))) =
          .ok (m, st) ∧
      ∀ k, alookup m k =
        (alookup ([([107], ⟨⟨0, 1, 20⟩, some 2000000000⟩)] : IndexMap) k).map truncIE := by
  have hgood : GoodEntry idCodec false
      (.put [107] [118] ((some 2000000000 : Option Nat).map (fun d => 0 + d))) := by
    refine ⟨by decide, by decide, by decide, ?_⟩
    intro t ht
    simp only [WalEntry.expiry, Option.map_some', Option.mem_def,
      Option.some.injEq] at ht
    subst ht
    decide
  have hr : ReachOps idCodec ⟨none, false, false, false⟩ should_compact
      ⟨[([107], ⟨⟨0, 1, 20⟩, some 2000000000⟩)],
       encode_entry idCodec false (.put [107] [118] (some 2000000000)),
       none, 0, 20⟩ :=
    ReachOps.put _ _ [107] [118] (some 2000000000) 0
      (ReachOps.init none _ rfl) hgood (by rfl)
  exact C3_replay idCodec ⟨none, false, false, false⟩ should_compact _ rfl rfl hr


/-- Claim C2 fails as stated: the WAL header stores expiries as whole
seconds, so compacting a live entry whose expiry has a sub-second component
(put_with_ttl with ttl 1.5 s, compacted at 1.2 s) rewrites it with the
truncated expiry 1.0 s; a get at 1.2 s returns the value before the compact
and None after it. -/
theorem C2_counterexample :
    (do
      let s0 ← buildState idCodec ⟨none, false, false, false⟩ [] none
      let s1 ← put_with_ttl idCodec ⟨none, false, false, false⟩ should_compact s0
        [107] [118] (some 1500000000) 0
      let g1 ← engine_get idCodec ⟨none, false, false, false⟩ s1 [107] 1200000000
      let s3 ← engine_compact idCodec ⟨none, false, false, false⟩ g1.2 1200000000
      let g2 ← engine_get idCodec ⟨none, false, false, false⟩ s3 [107] 1200000000
      pure (g1.1, g2.1) : Except Unit (Option (List Nat) × Option (List Nat))) =
      .ok (some [118], none) ∧
    (some [118] ≠ (none : Option (List Nat))) := by
  exact ⟨by rfl, by decide⟩

/-- Claim C2, amended: for an index without duplicate keys whose pointers
resolve to their records, with every index expiry on a whole-second
boundary, and where every cache hit for a key whose index entry has expired
is itself expired, the visible result of get(key) at a fixed time is
unchanged by a successful compact() at that time, under either compression
setting.  Whole seconds are forced: the rewrite re-encodes live records and
truncates sub-second expiries (see the counterexample); the cache condition
is forced because compaction removes expired keys from the cache while the
write-back fast path of get would still have served a live cache entry for
such a key. -/
theorem C2_compact_get (c : Codec) (cfg : EngineConfig) (s s1 : EngineState)
    (now : Time) (key : List Nat)
    (hnd : (s.index.map Prod.fst).Nodup)
    (hptr : PtrRes c cfg.compression s)
    (hsec : ∀ p ∈ s.index, ∀ t ∈ p.2.expires_at, t % nsPerSec = 0)
    (hcache : ∀ k ie, alookup s.index k = some ie →
      is_expired_at ie.expires_at now = true →
      ∀ cm, s.cache = some cm → ∀ ce, (cacheGet cm k).1 = some ce →
        is_expired_at ce.expires_at now = true)
    (h : engine_compact c cfg s now = .ok s1) :
    (engine_get c cfg s key now).map Prod.fst =
      (engine_get c cfg s1 key now).map Prod.fst := by
  obtain ⟨entries, expired, hcl, hgood⟩ :=
    collectLive_spec c cfg.compression s.wal now s.index hptr
  unfold engine_compact run_compaction at h
  rw [hcl] at h
  dsimp only at h
  injection h with hs1
  have hidx1 : s1.index =
      ((sortByKey entries).foldl (rwStep c cfg.compression) ([], [])).2 := by
    rw [← hs1]
    rfl
  have hwal1 : s1.wal =
      ((sortByKey entries).foldl (rwStep c cfg.compression) ([], [])).1 := by
    rw [← hs1]
    rfl
  have hcach1 : s1.cache = expired.foldl
      (fun oc k1 => oc.map (fun cm2 => cacheRemove cm2 k1)) s.cache := by
    rw [← hs1]
  obtain ⟨hOrig, hLive, hExpIff, hSub⟩ := collectLive_char c cfg.compression
    s.wal now s.index hptr entries expired hcl
  have hndE : (entries.map (fun x => x.1)).Nodup := List.Nodup.sublist hSub hnd
  have hndS := sortByKey_keys_nodup entries hndE
  have hgs : ∀ x ∈ sortByKey entries, GoodEntry c cfg.compression (toPutEntry x) :=
    fun x hx => hgood x ((sortByKey_mem entries x).1 hx)
  have hskipNone : (∀ x ∈ entries, x.1 ≠ key) → alookup s1.index key = none := by
    intro hx
    rw [hidx1, rwFold_lookup_skip c cfg.compression (sortByKey entries) [] [] key
      (fun x hxs => hx x ((sortByKey_mem entries x).1 hxs))]
    rfl
  have hI_exp_none : key ∈ expired → alookup s1.index key = none := by
    intro hk
    obtain ⟨ie2, hm2, hl2⟩ := (hExpIff key).1 hk
    refine hskipNone ?_
    intro x hxE heq
    obtain ⟨ie3, hm3, hl3⟩ := hOrig x hxE
    rw [heq] at hm3
    have h2 := mem_nodup_alookup s.index key ie2 hnd hm2
    have h3 := mem_nodup_alookup s.index key ie3 hnd hm3
    rw [h2] at h3
    injection h3 with hie
    rw [← hie] at hl3
    rw [hl2] at hl3
    exact absurd hl3 (by decide)
  have hgip : (getIndexPath c cfg s key now).map Prod.fst =
      (getIndexPath c cfg s1 key now).map Prod.fst := by
    cases hlk : alookup s.index key with
    | none =>
      have hn1 : alookup s1.index key = none := by
        refine hskipNone ?_
        intro x hxE heq
        obtain ⟨ie3, hm3, _⟩ := hOrig x hxE
        rw [heq] at hm3
        exact alookup_eq_none_not_mem s.index key hlk ie3 hm3
      rw [getIndexPath_none c cfg s key now hlk,
        getIndexPath_none c cfg s1 key now hn1]
      rfl
    | some ie =>
      by_cases he : is_expired_at ie.expires_at now = true
      · have hk : key ∈ expired := (hExpIff key).2 ⟨ie, alookup_mem _ _ _ hlk, he⟩
        rw [getIndexPath_expired c cfg s key now ie hlk he,
          getIndexPath_none c cfg s1 key now (hI_exp_none hk)]
        rfl
      · have he' : is_expired_at ie.expires_at now = false := by
          revert he; cases is_expired_at ie.expires_at now <;> simp
        have hmem : (key, ie) ∈ s.index := alookup_mem _ _ _ hlk
        obtain ⟨v, hvE, hreadS⟩ := hLive key ie hmem he'
        have hknotexp : key ∉ expired := by
          intro hk
          obtain ⟨ie2, hm2, hl2⟩ := (hExpIff key).1 hk
          have h2 := mem_nodup_alookup s.index key ie2 hnd hm2
          rw [hlk] at h2
          injection h2 with hie
          rw [← hie] at hl2
          rw [he'] at hl2
          exact absurd hl2 (by decide)
        have hsideS := getIndexPath_live c cfg s key now ie _ key v
          (ie.expires_at.map truncSec) hlk he' hreadS rfl
        have hxS : ((key, v, ie.expires_at.map truncSec) : LiveEntry) ∈
            sortByKey entries := (sortByKey_mem entries _).2 hvE
        obtain ⟨off, hlook, hle1, hdrop1⟩ := rwFold_lookup_val c cfg.compression
          (sortByKey entries) hndS hgs [] [] (key, v, ie.expires_at.map truncSec) hxS
        dsimp only [toPutEntry] at hlook hle1 hdrop1
        have hlk1 : alookup s1.index key = some ⟨⟨off, v.length % 4294967296,
            (encode_entry c cfg.compression
              (.put key v (ie.expires_at.map truncSec))).length
              % 4294967296⟩, ie.expires_at.map truncSec⟩ := by
          rw [hidx1]
          exact hlook
        have he1 : is_expired_at (ie.expires_at.map truncSec) now = false := by
          rw [map_truncSec_whole ie.expires_at (hsec (key, ie) hmem)]
          exact he'
        have hdropW : s1.wal.drop off =
            encode_entry c cfg.compression (.put key v (ie.expires_at.map truncSec))
              ++ s1.wal.drop (off + (encode_entry c cfg.compression
                (.put key v (ie.expires_at.map truncSec))).length) := by
          rw [hwal1]
          exact hdrop1
        have hread1 := read_record_at_of_drop c cfg.compression s1.wal key v
          (ie.expires_at.map truncSec) off (hgood _ hvE) hdropW
        have hsideS1 := getIndexPath_live c cfg s1 key now
          ⟨⟨off, v.length % 4294967296,
            (encode_entry c cfg.compression
              (.put key v (ie.expires_at.map truncSec))).length
              % 4294967296⟩, ie.expires_at.map truncSec⟩ _ key v
          ((ie.expires_at.map truncSec).map truncSec) hlk1 he1 hread1 rfl
        have hlgv : liveGetValue v s.cache key now =
            liveGetValue v s1.cache key now := by
          cases hc : s.cache with
          | none => rw [hcach1, hc, foldRemove_none]
          | some cm =>
            obtain ⟨cm1, hfold, hget⟩ := foldRemove_some expired cm
            rw [hcach1, hc, hfold]
            simp only [liveGetValue]
            rw [hget key, if_neg hknotexp]
        rw [hsideS, hsideS1, hlgv]
  by_cases hwb : cfg.write_back_cache = true
  · cases hc : s.cache with
    | none =>
      have hc1 : s1.cache = none := by rw [hcach1, hc, foldRemove_none]
      unfold engine_get
      rw [hwb, if_pos rfl, if_pos rfl, hc, hc1]
      exact hgip
    | some cm =>
      obtain ⟨cm1, hfold, hget⟩ := foldRemove_some expired cm
      have hc1 : s1.cache = some cm1 := by rw [hcach1, hc]; exact hfold
      unfold engine_get
      rw [hwb, if_pos rfl, if_pos rfl, hc, hc1]
      dsimp only
      cases hh : (cacheGet cm key).1 with
      | some ce =>
        by_cases hcee : is_expired_at ce.expires_at now = false
        · have hknot : key ∉ expired := by
            intro hk
            obtain ⟨ie2, hm2, hl2⟩ := (hExpIff key).1 hk
            have hce := hcache key ie2 (mem_nodup_alookup s.index key ie2 hnd hm2)
              hl2 cm hc ce hh
            rw [hce] at hcee
            exact absurd hcee (by decide)
          have hh1 : (cacheGet cm1 key).1 = some ce := by
            rw [hget key, if_neg hknot, hh]
          simp [hh, hh1, hcee, Except.map]
        · have hcet : is_expired_at ce.expires_at now = true := by
            revert hcee; cases is_expired_at ce.expires_at now <;> simp
          by_cases hk : key ∈ expired
          · have hh1 : (cacheGet cm1 key).1 = none := by
              rw [hget key, if_pos hk]
            have hn1 : alookup s1.index key = none := hI_exp_none hk
            simp only [hh, hh1, hcet, Bool.not_true, Bool.false_eq_true, if_false]
            rw [getIndexPath_none c cfg
              { s1 with cache := some (cacheGet cm1 key).2 } key now hn1]
            rfl
          · have hh1 : (cacheGet cm1 key).1 = some ce := by
              rw [hget key, if_neg hk, hh]
            simp [hh, hh1, hcet, Except.map]
      | none =>
        have hh1 : (cacheGet cm1 key).1 = none := by
          rw [hget key, hh, ite_self]
        have hsnd : (cacheGet cm key).2 = cm := cacheGet_snd_of_miss cm key hh
        have hsnd1 : (cacheGet cm1 key).2 = cm1 := cacheGet_snd_of_miss cm1 key hh1
        simp only [hh, hh1]
        rw [hsnd, hsnd1, ← hc, ← hc1]
        exact hgip
  · unfold engine_get
    rw [if_neg hwb, if_neg hwb]
    exact hgip

theorem C2_compact_get_witness :
    (engine_get idCodec ⟨none, false, false, false⟩
        ⟨[([107], ⟨⟨0, 1, 20⟩, none⟩), ([108], ⟨⟨20, 1, 20⟩, some 1000000000⟩)],
         encode_entry idCodec false (.put [107] [118] none)
           ++ encode_entry idCodec false (.put [108] [119] (some 1000000000)),
         none, 0, 40⟩ [107] 2000000000).map Prod.fst =
      (engine_get idCodec ⟨none, false, false, false⟩
        ⟨[([107], ⟨⟨0, 1, 20⟩, none⟩)],
         encode_entry idCodec false (.put [107] [118] none), none, 0, 20⟩
        [107] 2000000000).map Prod.fst := by
  have hptr : PtrRes idCodec false
      ⟨[([107], ⟨⟨0, 1, 20⟩, none⟩), ([108], ⟨⟨20, 1, 20⟩, some 1000000000⟩)],
       encode_entry idCodec false (.put [107] [118] none)
         ++ encode_entry idCodec false (.put [108] [119] (some 1000000000)),
       none, 0, 40⟩ := by
    intro p hp
    rcases List.mem_cons.1 hp with rfl | hp2
    · refine ⟨[118], ⟨by decide, by decide, by decide, ?_⟩, by decide, by decide⟩
      intro t ht
      simp [WalEntry.expiry] at ht
    · rcases List.mem_cons.1 hp2 with rfl | hp3
      · refine ⟨[119], ⟨by decide, by decide, by decide, ?_⟩, by decide, by decide⟩
        intro t ht
        simp only [WalEntry.expiry, Option.mem_def, Option.some.injEq] at ht
        subst ht
        decide
      · cases hp3
  exact C2_compact_get idCodec ⟨none, false, false, false⟩
    ⟨[([107], ⟨⟨0, 1, 20⟩, none⟩), ([108], ⟨⟨20, 1, 20⟩, some 1000000000⟩)],
     encode_entry idCodec false (.put [107] [118] none)
       ++ encode_entry idCodec false (.put [108] [119] (some 1000000000)),
     none, 0, 40⟩
    ⟨[([107], ⟨⟨0, 1, 20⟩, none⟩)],
     encode_entry idCodec false (.put [107] [118] none), none, 0, 20⟩
    2000000000 [107] (by decide) hptr
    (by
      intro p hp t ht
      rcases List.mem_cons.1 hp with rfl | hp2
      · simp at ht
      · rcases List.mem_cons.1 hp2 with rfl | hp3
        · simp only [Option.mem_def, Option.some.injEq] at ht
          subst ht
          decide
        · cases hp3)
    (by
      intro k ie hlk hexp cm hcm ce hce
      cases hcm)
    (by rfl)

end CrabKV
